import Mathlib

/-!
Verification of the `benchsort` external-sort benchmark harness
(cmd/benchsort/main.go): the binary row/file encoding (header + length
prefixed records) and the ratio-driven bounded loader.

Bytes are modelled as natural numbers below 256 in `List Nat`; Go's
`int`/`int64` values as `Int` with 64-bit wrapping made explicit where the
code converts; Go's `float64` arithmetic (used in `load`'s
`totalRows := int(float64(scale) * (float64(ratio) / 100.0))`) as exact
rational arithmetic rounded to 53-bit precision with IEEE round to nearest,
ties to even, which is exact over the magnitudes reachable here (no
overflow or subnormals).
-/

namespace Benchsort

/-! ## Big-endian byte encoding (`encoding/binary`, big-endian) -/

/-- `k`-byte big-endian encoding of `n % 256^k`, most significant byte
first; `putBE 8` is `binary.BigEndian.PutUint64`. -/
def putBE : Nat → Nat → List Nat
  | 0, _ => []
  | k + 1, n => putBE k (n / 256) ++ [n % 256]

/-- Big-endian read of a byte list; on 8 bytes this is
`binary.BigEndian.Uint64`. -/
def readBE (l : List Nat) : Nat :=
  l.foldl (fun a b => a * 256 + b) 0

theorem length_putBE (k n : Nat) : (putBE k n).length = k := by
  induction k generalizing n with
  | zero => rfl
  | succ k ih => simp [putBE, ih]

theorem readBE_append (l₁ l₂ : List Nat) :
    readBE (l₁ ++ l₂) = l₂.foldl (fun a b => a * 256 + b) (readBE l₁) := by
  simp [readBE, List.foldl_append]

theorem readBE_putBE (k n : Nat) : readBE (putBE k n) = n % 256 ^ k := by
  induction k generalizing n with
  | zero => simp [putBE, readBE, Nat.mod_one]
  | succ k ih =>
    have h : readBE (putBE k (n / 256) ++ [n % 256])
        = readBE (putBE k (n / 256)) * 256 + n % 256 := by
      simp [readBE_append, readBE]
    rw [putBE, h, ih, pow_succ, Nat.mul_comm (256 ^ k) 256, Nat.mod_mul]
    omega

/-- Go conversion `int(u)` of a `uint64` value: wraps into `[-2^63, 2^63)`. -/
def toSigned (u : Nat) : Int :=
  if u < 2 ^ 63 then (u : Int) else (u : Int) - 2 ^ 64

/-- Go conversion `uint64(z)` of an `int` value. -/
def toUint64 (z : Int) : Nat :=
  (z % 2 ^ 64).toNat

theorem toSigned_toUint64 (z : Int) (h₀ : -2 ^ 63 ≤ z) (h₁ : z < 2 ^ 63) :
    toSigned (toUint64 z) = z := by
  unfold toSigned toUint64
  split <;> omega

/-! ## Exact model of Go `float64` arithmetic

`load` computes `totalRows := int(float64(scale) * (float64(ratio) / 100.0))`.
Each Go operation produces the IEEE-754 double nearest its exact rational
value (ties to even). We model a double by its exact rational value and
each operation by rounding the exact rational result to 53 significant
bits. This is exact for the whole range reachable here: magnitudes lie in
`[2^-7, 2^64]`, far from overflow and subnormals. -/

/-- `2^z` as a rational, computable for both signs of `z`. -/
def pow2 : Int → ℚ
  | .ofNat n => ((2 ^ n : Nat) : ℚ)
  | .negSucc n => 1 / ((2 ^ (n + 1) : Nat) : ℚ)

theorem pow2_eq_zpow (z : Int) : pow2 z = (2 : ℚ) ^ z := by
  cases z with
  | ofNat n => simp [pow2, zpow_natCast]
  | negSucc n => simp [pow2, zpow_negSucc, one_div]

theorem pow2_pos (z : Int) : 0 < pow2 z := by
  rw [pow2_eq_zpow]; positivity

theorem pow2_add (a b : Int) : pow2 (a + b) = pow2 a * pow2 b := by
  rw [pow2_eq_zpow, pow2_eq_zpow, pow2_eq_zpow, zpow_add₀ (by norm_num : (2:ℚ) ≠ 0)]

theorem pow2_lt_pow2 {a b : Int} (h : a < b) : pow2 a < pow2 b := by
  rw [pow2_eq_zpow, pow2_eq_zpow]
  exact zpow_lt_zpow_right₀ (by norm_num : (1:ℚ) < 2) h

theorem pow2_le_pow2 {a b : Int} (h : a ≤ b) : pow2 a ≤ pow2 b := by
  rcases lt_or_eq_of_le h with h' | h'
  · exact le_of_lt (pow2_lt_pow2 h')
  · rw [h']

theorem lt_of_pow2_lt_pow2 {a b : Int} (h : pow2 a < pow2 b) : a < b := by
  by_contra hab
  exact absurd (pow2_le_pow2 (not_lt.mp hab)) (not_le.mpr h)

/-- Smallest `k ≤ fuel` with `1 ≤ q * 2^k` (for `0 < q < 1` and enough
fuel): locates the binary exponent of a small positive rational. -/
def expUp : Nat → ℚ → Nat
  | 0, _ => 0
  | fuel + 1, q => if 1 ≤ q then 0 else expUp fuel (2 * q) + 1

/-- Fuel-bounded base-2 logarithm on naturals (structural recursion, so
that it evaluates by kernel reduction). -/
def nlog2 : Nat → Nat → Nat
  | 0, _ => 0
  | fuel + 1, n => if 2 ≤ n then nlog2 fuel (n / 2) + 1 else 0

/-- The binary exponent of a positive rational: the unique `s` with
`2^s ≤ q < 2^(s+1)` (fuel 1200, ample for the whole double range). -/
def qexp (q : ℚ) : Int :=
  if 1 ≤ q then (nlog2 1200 ⌊q⌋.toNat : Int) else -(expUp 1200 q : Int)

/-- Round a rational to the nearest integer, ties to even: the IEEE
mantissa rounding rule. -/
def rhe (m : ℚ) : Int :=
  if m - ⌊m⌋ < 1 / 2 then ⌊m⌋
  else if 1 / 2 < m - ⌊m⌋ then ⌊m⌋ + 1
  else if ⌊m⌋ % 2 = 0 then ⌊m⌋ else ⌊m⌋ + 1

/-- Round a positive rational to 53 significant bits, nearest, ties to
even: the exact value of the nearest IEEE-754 double. -/
def floatRoundPos (q : ℚ) : ℚ :=
  ((rhe (q * pow2 (52 - qexp q)) : ℚ)) * pow2 (qexp q - 52)

/-- The exact rational value of the IEEE-754 double nearest `q` (no
overflow / subnormal handling: exact on the range exercised here). -/
def floatRound (q : ℚ) : ℚ :=
  if q = 0 then 0
  else if 0 < q then floatRoundPos q
  else -floatRoundPos (-q)

theorem pow2_natCast (n : Nat) : pow2 (n : Int) = ((2 : ℚ)) ^ n := by
  rw [pow2_eq_zpow, zpow_natCast]

theorem expUp_eq_zero (fuel : Nat) (q : ℚ) (h : 1 ≤ q) : expUp fuel q = 0 := by
  cases fuel with
  | zero => rfl
  | succ f => simp [expUp, h]

theorem expUp_spec (fuel : Nat) (q : ℚ) (h0 : 0 < q) (h1 : q < 1)
    (hf : 1 ≤ q * 2 ^ fuel) :
    1 ≤ expUp fuel q ∧ 1 ≤ q * 2 ^ expUp fuel q ∧
      q * 2 ^ (expUp fuel q - 1) < 1 := by
  induction fuel generalizing q with
  | zero =>
    exfalso
    rw [pow_zero, mul_one] at hf
    linarith
  | succ f ih =>
    rw [expUp, if_neg (by linarith)]
    by_cases h2 : 1 ≤ 2 * q
    · rw [expUp_eq_zero f (2 * q) h2]
      refine ⟨by omega, ?_, ?_⟩
      · rw [pow_one]; linarith
      · simpa using h1
    · have hf' : 1 ≤ 2 * q * 2 ^ f := by
        rw [pow_succ] at hf; linarith
      obtain ⟨hk1, hk2, hk3⟩ := ih (2 * q) (by linarith) (by linarith) hf'
      obtain ⟨j, hj⟩ := Nat.exists_eq_add_of_le hk1
      rw [hj]
      refine ⟨by omega, ?_, ?_⟩
      · rw [hj] at hk2
        calc (1:ℚ) ≤ 2 * q * 2 ^ (1 + j) := hk2
        _ = q * 2 ^ (1 + j + 1) := by ring
      · rw [show 1 + j + 1 - 1 = 1 + j by omega]
        rw [hj, show 1 + j - 1 = j by omega] at hk3
        calc q * 2 ^ (1 + j) = 2 * q * 2 ^ j := by ring
        _ < 1 := hk3

theorem nlog2_spec (fuel : Nat) : ∀ n : Nat, 1 ≤ n → n < 2 ^ fuel →
    2 ^ nlog2 fuel n ≤ n ∧ n < 2 ^ (nlog2 fuel n + 1) := by
  induction fuel with
  | zero => intro n h1 h2; omega
  | succ f ih =>
    intro n h1 h2
    by_cases h : 2 ≤ n
    · rw [nlog2, if_pos h]
      have hdiv : n / 2 < 2 ^ f := by
        have h2f := h2
        rw [pow_succ] at h2f
        omega
      obtain ⟨ha, hb⟩ := ih (n / 2) (by omega) hdiv
      rw [pow_succ, pow_succ] at *
      omega
    · rw [nlog2, if_neg h]
      omega

theorem qexp_spec (q : ℚ) (h0 : 0 < q) (hlb : pow2 (-1100) ≤ q)
    (hub : q ≤ pow2 1100) :
    pow2 (qexp q) ≤ q ∧ q < pow2 (qexp q + 1) := by
  unfold qexp
  by_cases h1 : 1 ≤ q
  · rw [if_pos h1]
    have hfl1 : (1 : ℤ) ≤ ⌊q⌋ := by
      rw [Int.le_floor]; exact_mod_cast h1
    have hflub : ⌊q⌋ ≤ 2 ^ 1100 := by
      have : ⌊q⌋ ≤ ⌊pow2 1100⌋ := Int.floor_le_floor hub
      rwa [show pow2 1100 = ((2 ^ 1100 : ℤ) : ℚ) by
        rw [show (1100 : ℤ) = ((1100 : ℕ) : ℤ) by norm_num, pow2_natCast]
        push_cast; ring, Int.floor_intCast] at this
    have hn1 : 1 ≤ ⌊q⌋.toNat := by omega
    have hn2 : ⌊q⌋.toNat < 2 ^ 1200 := by
      have h12 : (2 : ℤ) ^ 1100 < 2 ^ 1200 := by
        apply pow_lt_pow_right₀ <;> norm_num
      omega
    obtain ⟨ha, hb⟩ := nlog2_spec 1200 ⌊q⌋.toNat hn1 hn2
    have htn : ((⌊q⌋.toNat : ℕ) : ℤ) = ⌊q⌋ := Int.toNat_of_nonneg (by omega)
    constructor
    · rw [pow2_natCast]
      have h2 : ((2:ℚ)) ^ nlog2 1200 ⌊q⌋.toNat ≤ ((⌊q⌋ : ℤ) : ℚ) := by
        rw [← htn]; exact_mod_cast ha
      exact le_trans h2 (Int.floor_le q)
    · rw [show ((nlog2 1200 ⌊q⌋.toNat : ℤ)) + 1 = ((nlog2 1200 ⌊q⌋.toNat + 1 : ℕ) : ℤ) by push_cast; ring,
        pow2_natCast]
      have hb2 : ⌊q⌋ + 1 ≤ ((2 ^ (nlog2 1200 ⌊q⌋.toNat + 1) : ℕ) : ℤ) := by
        rw [← htn]
        exact_mod_cast Nat.succ_le_of_lt hb
      calc q < ⌊q⌋ + 1 := Int.lt_floor_add_one q
      _ ≤ (((2 ^ (nlog2 1200 ⌊q⌋.toNat + 1) : ℕ) : ℤ) : ℚ) := by exact_mod_cast hb2
      _ = ((2:ℚ)) ^ (nlog2 1200 ⌊q⌋.toNat + 1) := by push_cast; ring
  · rw [if_neg h1]
    push_neg at h1
    have hfuel : 1 ≤ q * 2 ^ 1200 := by
      have h2 : pow2 (-1100) * 2 ^ (1200:ℕ) ≤ q * 2 ^ (1200:ℕ) :=
        mul_le_mul_of_nonneg_right hlb (by positivity)
      have h3 : pow2 (-1100) * 2 ^ (1200:ℕ) = pow2 100 := by
        rw [← pow2_natCast, ← pow2_add]; norm_num
      have h4 : (1:ℚ) ≤ pow2 100 := by
        calc (1:ℚ) = pow2 0 := by norm_num [pow2]
        _ ≤ pow2 100 := pow2_le_pow2 (by norm_num)
      calc (1:ℚ) ≤ pow2 100 := h4
      _ = pow2 (-1100) * 2 ^ (1200:ℕ) := h3.symm
      _ ≤ q * 2 ^ (1200:ℕ) := h2
    obtain ⟨hk1, hk2, hk3⟩ := expUp_spec 1200 q h0 h1 hfuel
    constructor
    · rw [pow2_eq_zpow, zpow_neg, zpow_natCast, inv_eq_one_div,
        div_le_iff (by positivity : (0:ℚ) < 2 ^ expUp 1200 q)]
      linarith [hk2]
    · obtain ⟨j, hj⟩ := Nat.exists_eq_add_of_le hk1
      rw [hj] at hk3 ⊢
      rw [show 1 + j - 1 = j by omega] at hk3
      rw [show -((1 + j : ℕ) : ℤ) + 1 = -(j : ℤ) by push_cast; ring]
      rw [pow2_eq_zpow, zpow_neg, zpow_natCast, inv_eq_one_div,
        lt_div_iff (by positivity : (0:ℚ) < 2 ^ j)]
      linarith [hk3]

/-- Values inside the exponent range the fuel of `qexp` covers. -/
def InRange (q : ℚ) : Prop :=
  pow2 (-1100) ≤ q ∧ q ≤ pow2 1100

theorem inRange_pos {q : ℚ} (h : InRange q) : 0 < q :=
  lt_of_lt_of_le (pow2_pos _) h.1

theorem qexp_unique {q : ℚ} (h : InRange q) {s : Int}
    (h1 : pow2 s ≤ q) (h2 : q < pow2 (s + 1)) : qexp q = s := by
  obtain ⟨ha, hb⟩ := qexp_spec q (inRange_pos h) h.1 h.2
  by_contra hne
  rcases lt_or_gt_of_ne hne with hlt | hgt
  · have : pow2 (qexp q + 1) ≤ pow2 s := pow2_le_pow2 (by omega)
    linarith
  · have : pow2 (s + 1) ≤ pow2 (qexp q) := pow2_le_pow2 (by omega)
    linarith

theorem qexp_mono {q₁ q₂ : ℚ} (h₁ : InRange q₁) (h₂ : InRange q₂)
    (h : q₁ ≤ q₂) : qexp q₁ ≤ qexp q₂ := by
  obtain ⟨ha₁, hb₁⟩ := qexp_spec q₁ (inRange_pos h₁) h₁.1 h₁.2
  obtain ⟨ha₂, hb₂⟩ := qexp_spec q₂ (inRange_pos h₂) h₂.1 h₂.2
  have h2 : pow2 (qexp q₁) < pow2 (qexp q₂ + 1) := by linarith
  have := lt_of_pow2_lt_pow2 h2
  omega

theorem floor_le_rhe (m : ℚ) : ⌊m⌋ ≤ rhe m := by
  unfold rhe
  split_ifs <;> omega

theorem rhe_le_floor_add_one (m : ℚ) : rhe m ≤ ⌊m⌋ + 1 := by
  unfold rhe
  split_ifs <;> omega

theorem rhe_intCast (k : Int) : rhe (k : ℚ) = k := by
  unfold rhe
  rw [Int.floor_intCast]
  rw [if_pos (by norm_num)]

theorem rhe_mono {m₁ m₂ : ℚ} (h : m₁ ≤ m₂) : rhe m₁ ≤ rhe m₂ := by
  have hf : ⌊m₁⌋ ≤ ⌊m₂⌋ := Int.floor_le_floor h
  rcases lt_or_eq_of_le hf with hlt | heq
  · calc rhe m₁ ≤ ⌊m₁⌋ + 1 := rhe_le_floor_add_one m₁
    _ ≤ ⌊m₂⌋ := by omega
    _ ≤ rhe m₂ := floor_le_rhe m₂
  · unfold rhe
    rw [← heq]
    split_ifs <;> first
      | omega
      | (exfalso; linarith)

theorem intCast_pow2 (n : Nat) : ((2 ^ n : Int) : ℚ) = pow2 (n : Int) := by
  rw [pow2_natCast]; push_cast; ring

theorem floatRoundPos_m_lb {q : ℚ} (h : InRange q) :
    ((2 ^ 52 : Int) : ℚ) ≤ q * pow2 (52 - qexp q) := by
  obtain ⟨ha, _⟩ := qexp_spec q (inRange_pos h) h.1 h.2
  have h1 : qexp q + (52 - qexp q) = ((52:ℕ) : ℤ) := by push_cast; ring
  calc ((2 ^ 52 : Int) : ℚ) = pow2 ((52:ℕ) : ℤ) := intCast_pow2 52
  _ = pow2 (qexp q) * pow2 (52 - qexp q) := by rw [← pow2_add, h1]
  _ ≤ q * pow2 (52 - qexp q) :=
      mul_le_mul_of_nonneg_right ha (le_of_lt (pow2_pos _))

theorem floatRoundPos_m_ub {q : ℚ} (h : InRange q) :
    q * pow2 (52 - qexp q) < ((2 ^ 53 : Int) : ℚ) := by
  obtain ⟨_, hb⟩ := qexp_spec q (inRange_pos h) h.1 h.2
  have h1 : qexp q + 1 + (52 - qexp q) = ((53:ℕ) : ℤ) := by push_cast; ring
  calc q * pow2 (52 - qexp q) < pow2 (qexp q + 1) * pow2 (52 - qexp q) :=
      mul_lt_mul_of_pos_right hb (pow2_pos _)
  _ = pow2 ((53:ℕ) : ℤ) := by rw [← pow2_add, h1]
  _ = ((2 ^ 53 : Int) : ℚ) := (intCast_pow2 53).symm

theorem rhe_m_lb {q : ℚ} (h : InRange q) :
    (2 ^ 52 : Int) ≤ rhe (q * pow2 (52 - qexp q)) := by
  have h1 : (2 ^ 52 : Int) ≤ ⌊q * pow2 (52 - qexp q)⌋ :=
    Int.le_floor.mpr (floatRoundPos_m_lb h)
  exact le_trans h1 (floor_le_rhe _)

theorem rhe_m_ub {q : ℚ} (h : InRange q) :
    rhe (q * pow2 (52 - qexp q)) ≤ (2 ^ 53 : Int) := by
  have h1 : ⌊q * pow2 (52 - qexp q)⌋ < (2 ^ 53 : Int) :=
    Int.floor_lt.mpr (floatRoundPos_m_ub h)
  have := rhe_le_floor_add_one (q * pow2 (52 - qexp q))
  omega

theorem floatRoundPos_lb {q : ℚ} (h : InRange q) :
    pow2 (qexp q) ≤ floatRoundPos q := by
  unfold floatRoundPos
  have h1 : ((2 ^ 52 : Int) : ℚ) ≤ ((rhe (q * pow2 (52 - qexp q)) : Int) : ℚ) := by
    exact_mod_cast rhe_m_lb h
  calc pow2 (qexp q) = pow2 ((52:ℕ) : ℤ) * pow2 (qexp q - 52) := by
        rw [← pow2_add, show ((52:ℕ) : ℤ) + (qexp q - 52) = qexp q by push_cast; ring]
  _ = ((2 ^ 52 : Int) : ℚ) * pow2 (qexp q - 52) := by rw [intCast_pow2]
  _ ≤ ((rhe (q * pow2 (52 - qexp q)) : Int) : ℚ) * pow2 (qexp q - 52) :=
      mul_le_mul_of_nonneg_right h1 (le_of_lt (pow2_pos _))

theorem floatRoundPos_ub {q : ℚ} (h : InRange q) :
    floatRoundPos q ≤ pow2 (qexp q + 1) := by
  unfold floatRoundPos
  have h1 : ((rhe (q * pow2 (52 - qexp q)) : Int) : ℚ) ≤ ((2 ^ 53 : Int) : ℚ) := by
    exact_mod_cast rhe_m_ub h
  calc ((rhe (q * pow2 (52 - qexp q)) : Int) : ℚ) * pow2 (qexp q - 52)
      ≤ ((2 ^ 53 : Int) : ℚ) * pow2 (qexp q - 52) :=
        mul_le_mul_of_nonneg_right h1 (le_of_lt (pow2_pos _))
  _ = pow2 ((53:ℕ) : ℤ) * pow2 (qexp q - 52) := by rw [intCast_pow2]
  _ = pow2 (qexp q + 1) := by
        rw [← pow2_add, show ((53:ℕ) : ℤ) + (qexp q - 52) = qexp q + 1 by push_cast; ring]

theorem floatRoundPos_mono {q₁ q₂ : ℚ} (h₁ : InRange q₁) (h₂ : InRange q₂)
    (h : q₁ ≤ q₂) : floatRoundPos q₁ ≤ floatRoundPos q₂ := by
  have hs : qexp q₁ ≤ qexp q₂ := qexp_mono h₁ h₂ h
  rcases lt_or_eq_of_le hs with hlt | heq
  · calc floatRoundPos q₁ ≤ pow2 (qexp q₁ + 1) := floatRoundPos_ub h₁
    _ ≤ pow2 (qexp q₂) := pow2_le_pow2 (by omega)
    _ ≤ floatRoundPos q₂ := floatRoundPos_lb h₂
  · unfold floatRoundPos
    rw [← heq]
    have hm : q₁ * pow2 (52 - qexp q₁) ≤ q₂ * pow2 (52 - qexp q₁) :=
      mul_le_mul_of_nonneg_right h (le_of_lt (pow2_pos _))
    have hr : rhe (q₁ * pow2 (52 - qexp q₁)) ≤ rhe (q₂ * pow2 (52 - qexp q₁)) :=
      rhe_mono hm
    exact mul_le_mul_of_nonneg_right (by exact_mod_cast hr) (le_of_lt (pow2_pos _))

theorem floatRoundPos_nonneg {q : ℚ} (h : 0 < q) : 0 ≤ floatRoundPos q := by
  unfold floatRoundPos
  have hm : (0:ℚ) ≤ q * pow2 (52 - qexp q) :=
    le_of_lt (mul_pos h (pow2_pos _))
  have h1 : (0:ℤ) ≤ ⌊q * pow2 (52 - qexp q)⌋ := Int.floor_nonneg.mpr hm
  have h2 : (0:ℤ) ≤ rhe (q * pow2 (52 - qexp q)) := le_trans h1 (floor_le_rhe _)
  have h3 : (0:ℚ) ≤ ((rhe (q * pow2 (52 - qexp q)) : Int) : ℚ) := by exact_mod_cast h2
  exact mul_nonneg h3 (le_of_lt (pow2_pos _))

theorem floatRound_of_pos {q : ℚ} (h : 0 < q) : floatRound q = floatRoundPos q := by
  unfold floatRound
  rw [if_neg (ne_of_gt h), if_pos h]

theorem floatRound_zero : floatRound 0 = 0 := by
  unfold floatRound
  rw [if_pos rfl]

theorem floatRound_nonneg {q : ℚ} (h : 0 ≤ q) : 0 ≤ floatRound q := by
  rcases lt_or_eq_of_le h with h' | h'
  · rw [floatRound_of_pos h']; exact floatRoundPos_nonneg h'
  · rw [← h', floatRound_zero]

theorem pow2_one_eq : pow2 1 = (2:ℚ) := by norm_num [pow2]

theorem floatRound_bounds {q : ℚ} (h : InRange q) :
    q / 2 < floatRound q ∧ floatRound q ≤ 2 * q := by
  have hq := inRange_pos h
  obtain ⟨ha, hb⟩ := qexp_spec q hq h.1 h.2
  rw [floatRound_of_pos hq]
  have h1 : pow2 (qexp q + 1) = 2 * pow2 (qexp q) := by
    rw [pow2_add, pow2_one_eq]; ring
  constructor
  · have h2 : q / 2 < pow2 (qexp q) := by rw [h1] at hb; linarith
    exact lt_of_lt_of_le h2 (floatRoundPos_lb h)
  · calc floatRoundPos q ≤ pow2 (qexp q + 1) := floatRoundPos_ub h
    _ = 2 * pow2 (qexp q) := h1
    _ ≤ 2 * q := by linarith

theorem floatRound_mono {q₁ q₂ : ℚ} (h : q₁ ≤ q₂)
    (hr₁ : q₁ = 0 ∨ InRange q₁) (hr₂ : InRange q₂) :
    floatRound q₁ ≤ floatRound q₂ := by
  rcases hr₁ with h1 | h1
  · rw [h1, floatRound_zero]
    exact floatRound_nonneg (le_of_lt (inRange_pos hr₂))
  · rw [floatRound_of_pos (inRange_pos h1), floatRound_of_pos (inRange_pos hr₂)]
    exact floatRoundPos_mono h1 hr₂ h

theorem pow2_ofNat (n : Nat) : pow2 (Int.ofNat n) = ((2 ^ n : ℕ) : ℚ) := rfl

theorem pow2_zero_eq : pow2 0 = (1:ℚ) := by norm_num [pow2]

/-- Naturals up to `2^53` are exactly representable: rounding to double is
the identity on them. -/
theorem floatRound_natCast (n : ℕ) (hn : n ≤ 2 ^ 53) :
    floatRound (n : ℚ) = (n : ℚ) := by
  rcases Nat.eq_zero_or_pos n with h0 | h0
  · subst h0; simp [floatRound_zero]
  have hq : (0:ℚ) < n := by exact_mod_cast h0
  have hn1 : (1:ℚ) ≤ (n:ℚ) := by exact_mod_cast h0
  have hub : (n:ℚ) ≤ pow2 53 := by
    rw [show pow2 53 = ((2 ^ 53 : ℕ) : ℚ) from rfl]
    exact_mod_cast hn
  have hrange : InRange (n:ℚ) := by
    constructor
    · calc pow2 (-1100) ≤ pow2 0 := pow2_le_pow2 (by norm_num)
      _ = 1 := pow2_zero_eq
      _ ≤ (n:ℚ) := hn1
    · exact le_trans hub (pow2_le_pow2 (by norm_num))
  obtain ⟨ha, hb⟩ := qexp_spec _ hq hrange.1 hrange.2
  have hs0 : 0 ≤ qexp (n:ℚ) := by
    by_contra hneg
    push_neg at hneg
    have h2 : pow2 (qexp (n:ℚ) + 1) ≤ pow2 0 := pow2_le_pow2 (by omega)
    rw [pow2_zero_eq] at h2
    linarith
  have hs53 : qexp (n:ℚ) ≤ 53 := by
    by_contra hgt
    push_neg at hgt
    have h2 : pow2 53 < pow2 (qexp (n:ℚ)) := pow2_lt_pow2 (by omega)
    linarith
  rw [floatRound_of_pos hq]
  rcases lt_or_eq_of_le hs53 with hs52 | hs53eq
  · have hs52' : qexp (n:ℚ) ≤ 52 := by omega
    unfold floatRoundPos
    have hk' : (((52 - qexp (n:ℚ)).toNat : ℕ) : ℤ) = 52 - qexp (n:ℚ) := by omega
    have hm : (n:ℚ) * pow2 (52 - qexp (n:ℚ))
        = (((n * 2 ^ (52 - qexp (n:ℚ)).toNat : ℕ) : ℤ) : ℚ) := by
      rw [← hk', pow2_natCast]; push_cast [Int.toNat_natCast]; ring
    rw [hm, rhe_intCast]
    have hm2 : ((((n * 2 ^ (52 - qexp (n:ℚ)).toNat : ℕ) : ℤ)) : ℚ)
        = (n:ℚ) * pow2 (((52 - qexp (n:ℚ)).toNat : ℕ) : ℤ) := by
      rw [pow2_natCast]; push_cast; ring
    rw [hm2, mul_assoc, ← pow2_add,
      show (((52 - qexp (n:ℚ)).toNat : ℕ) : ℤ) + (qexp (n:ℚ) - 52) = 0 by omega,
      pow2_zero_eq, mul_one]
  · have hn53 : (n:ℚ) = pow2 53 := by
      apply le_antisymm hub
      rw [hs53eq] at ha
      exact ha
    unfold floatRoundPos
    rw [hs53eq, hn53]
    have hm : pow2 53 * pow2 (52 - 53) = (((2 ^ 52 : ℕ) : ℤ) : ℚ) := by
      rw [← pow2_add, show (53 : ℤ) + (52 - 53) = Int.ofNat 52 by norm_num, pow2_ofNat]
      push_cast; ring
    rw [hm, rhe_intCast]
    rw [show ((((2 ^ 52 : ℕ) : ℤ)) : ℚ) = pow2 (Int.ofNat 52) by rw [pow2_ofNat]; push_cast; ring]
    rw [← pow2_add, show Int.ofNat 52 + (53 - 52) = 53 by norm_num]

/-- Go truncation toward zero of a float value, `int(f)`. -/
def goTrunc (q : ℚ) : Int :=
  if 0 ≤ q then ⌊q⌋ else ⌈q⌉

/-- `totalRows := int(float64(scale) * (float64(ratio) / 100.0))` from
`load`, with every float64 operation modelled exactly. -/
def goTotalRows (scale ratio : Int) : Int :=
  goTrunc (floatRound (floatRound (scale : ℚ) *
    floatRound (floatRound (ratio : ℚ) / 100)))

theorem floatRound_intCast (z : Int) (h0 : 0 ≤ z) (hz : z ≤ 2 ^ 53) :
    floatRound (z : ℚ) = (z : ℚ) := by
  have h1 : ((z.toNat : ℕ) : ℚ) = (z : ℚ) := by exact_mod_cast Int.toNat_of_nonneg h0
  rw [← h1]
  exact floatRound_natCast z.toNat (by omega)

theorem goTrunc_zero : goTrunc 0 = 0 := by
  unfold goTrunc
  rw [if_pos le_rfl, Int.floor_zero]

theorem goTrunc_intCast (z : Int) (h : 0 ≤ z) : goTrunc (z : ℚ) = z := by
  unfold goTrunc
  rw [if_pos (by exact_mod_cast h), Int.floor_intCast]

theorem goTrunc_mono {x y : ℚ} (hx : 0 ≤ x) (hxy : x ≤ y) :
    goTrunc x ≤ goTrunc y := by
  unfold goTrunc
  rw [if_pos hx, if_pos (le_trans hx hxy)]
  exact Int.floor_le_floor hxy

theorem goTrunc_nonneg {x : ℚ} (hx : 0 ≤ x) : 0 ≤ goTrunc x := by
  unfold goTrunc
  rw [if_pos hx]
  exact Int.floor_nonneg.mpr hx

/-- Ratio 0 always loads zero rows. -/
theorem goTotalRows_zero_ratio (scale : Int) : goTotalRows scale 0 = 0 := by
  unfold goTotalRows
  rw [Int.cast_zero, floatRound_zero, zero_div, floatRound_zero, mul_zero,
    floatRound_zero, goTrunc_zero]

/-- Ratio 100 with `scale ≤ 2^53` loads exactly `scale` rows. -/
theorem goTotalRows_hundred (scale : Int) (h0 : 0 ≤ scale)
    (h53 : scale ≤ 2 ^ 53) : goTotalRows scale 100 = scale := by
  unfold goTotalRows
  have h100 : floatRound ((100 : ℤ) : ℚ) = ((100 : ℤ) : ℚ) :=
    floatRound_intCast 100 (by norm_num) (by norm_num)
  rw [h100]
  rw [show ((100 : ℤ) : ℚ) / 100 = ((1 : ℤ) : ℚ) by push_cast; norm_num]
  rw [floatRound_intCast 1 (by norm_num) (by norm_num)]
  rw [show ((1 : ℤ) : ℚ) = (1 : ℚ) by push_cast; ring, mul_one]
  rw [floatRound_intCast scale h0 h53, floatRound_intCast scale h0 h53]
  exact goTrunc_intCast scale h0

theorem goTotalRows_nonneg (scale ratio : Int) (hs : 0 ≤ scale)
    (hr : 0 ≤ ratio) : 0 ≤ goTotalRows scale ratio := by
  unfold goTotalRows
  have h1 : (0:ℚ) ≤ floatRound (ratio : ℚ) :=
    floatRound_nonneg (by exact_mod_cast hr)
  have h2 : (0:ℚ) ≤ floatRound (floatRound (ratio : ℚ) / 100) :=
    floatRound_nonneg (by positivity)
  have h3 : (0:ℚ) ≤ floatRound (scale : ℚ) :=
    floatRound_nonneg (by exact_mod_cast hs)
  exact goTrunc_nonneg (floatRound_nonneg (by positivity))

/-- The loaded row count is monotone in the ratio. -/
theorem goTotalRows_mono (scale r₁ r₂ : Int) (hs1 : 1 ≤ scale)
    (hs2 : scale ≤ 2 ^ 63) (h0 : 0 ≤ r₁) (h12 : r₁ ≤ r₂) (h100 : r₂ ≤ 100) :
    goTotalRows scale r₁ ≤ goTotalRows scale r₂ := by
  rcases eq_or_lt_of_le h0 with hz | hpos
  · rw [← hz, goTotalRows_zero_ratio]
    exact goTotalRows_nonneg scale r₂ (by omega) (by omega)
  have hr₁ : floatRound ((r₁ : ℤ) : ℚ) = ((r₁ : ℤ) : ℚ) :=
    floatRound_intCast r₁ (by omega) (by norm_num; omega)
  have hr₂ : floatRound ((r₂ : ℤ) : ℚ) = ((r₂ : ℤ) : ℚ) :=
    floatRound_intCast r₂ (by omega) (by norm_num; omega)
  unfold goTotalRows
  rw [hr₁, hr₂]
  have hq₁pos : (0:ℚ) < (r₁ : ℚ) / 100 := by
    have : (0:ℚ) < (r₁ : ℚ) := by exact_mod_cast hpos
    positivity
  have hq₁lb : pow2 (-7) ≤ ((r₁ : ℤ) : ℚ) / 100 := by
    have h1 : (1:ℚ) ≤ ((r₁ : ℤ) : ℚ) := by exact_mod_cast hpos
    have h2 : pow2 (-7) = 1 / ((2 ^ 7 : ℕ) : ℚ) := rfl
    rw [h2]
    rw [div_le_div_iff (by norm_num) (by norm_num)]
    push_cast
    linarith
  have hq₁range : InRange (((r₁ : ℤ) : ℚ) / 100) := by
    constructor
    · exact le_trans (pow2_le_pow2 (by norm_num)) hq₁lb
    · have h1 : ((r₁ : ℤ) : ℚ) / 100 ≤ 1 := by
        rw [div_le_one (by norm_num)]
        exact_mod_cast le_trans h12 h100
      calc ((r₁ : ℤ) : ℚ) / 100 ≤ 1 := h1
      _ = pow2 0 := pow2_zero_eq.symm
      _ ≤ pow2 1100 := pow2_le_pow2 (by norm_num)
  have hq₂range : InRange (((r₂ : ℤ) : ℚ) / 100) := by
    constructor
    · calc pow2 (-1100) ≤ pow2 (-7) := pow2_le_pow2 (by norm_num)
      _ ≤ ((r₁ : ℤ) : ℚ) / 100 := hq₁lb
      _ ≤ ((r₂ : ℤ) : ℚ) / 100 := by
          apply div_le_div_of_nonneg_right ?_ ?_ <;> first
            | exact_mod_cast h12
            | norm_num
    · have h1 : ((r₂ : ℤ) : ℚ) / 100 ≤ 1 := by
        rw [div_le_one (by norm_num)]
        exact_mod_cast h100
      calc ((r₂ : ℤ) : ℚ) / 100 ≤ 1 := h1
      _ = pow2 0 := pow2_zero_eq.symm
      _ ≤ pow2 1100 := pow2_le_pow2 (by norm_num)
  have hb12 : floatRound (((r₁ : ℤ) : ℚ) / 100) ≤ floatRound (((r₂ : ℤ) : ℚ) / 100) :=
    floatRound_mono (by
      apply div_le_div_of_nonneg_right ?_ ?_ <;> first
        | exact_mod_cast h12
        | norm_num) (Or.inr hq₁range) hq₂range
  obtain ⟨hb₁lb, hb₁ub⟩ := floatRound_bounds hq₁range
  obtain ⟨hb₂lb, hb₂ub⟩ := floatRound_bounds hq₂range
  have hsrange : InRange ((scale : ℤ) : ℚ) := by
    constructor
    · calc pow2 (-1100) ≤ pow2 0 := pow2_le_pow2 (by norm_num)
      _ = 1 := pow2_zero_eq
      _ ≤ ((scale : ℤ) : ℚ) := by exact_mod_cast hs1
    · calc ((scale : ℤ) : ℚ) ≤ ((2 ^ 63 : ℕ) : ℚ) := by exact_mod_cast hs2
      _ = pow2 63 := rfl
      _ ≤ pow2 1100 := pow2_le_pow2 (by norm_num)
  obtain ⟨hclb, hcub⟩ := floatRound_bounds hsrange
  have hc0 : (0:ℚ) < floatRound ((scale : ℤ) : ℚ) := by
    have : (0:ℚ) < ((scale : ℤ) : ℚ) / 2 := by
      have h1 : (1:ℚ) ≤ ((scale : ℤ) : ℚ) := by exact_mod_cast hs1
      linarith
    linarith
  have hprod12 : floatRound ((scale : ℤ) : ℚ) * floatRound (((r₁ : ℤ) : ℚ) / 100)
      ≤ floatRound ((scale : ℤ) : ℚ) * floatRound (((r₂ : ℤ) : ℚ) / 100) :=
    mul_le_mul_of_nonneg_left hb12 (le_of_lt hc0)
  have hb₁pos : (0:ℚ) < floatRound (((r₁ : ℤ) : ℚ) / 100) := by
    have : (0:ℚ) < ((r₁ : ℤ) : ℚ) / 100 / 2 := by positivity
    linarith
  have hs1q : (1:ℚ) ≤ ((scale : ℤ) : ℚ) := by exact_mod_cast hs1
  have hsubq : ((scale : ℤ) : ℚ) ≤ pow2 63 := by
    calc ((scale : ℤ) : ℚ) ≤ ((2 ^ 63 : ℕ) : ℚ) := by exact_mod_cast hs2
    _ = pow2 63 := rfl
  have hq₂ub : ((r₂ : ℤ) : ℚ) / 100 ≤ 1 := by
    rw [div_le_one (by norm_num)]
    exact_mod_cast h100
  have hp₁range : InRange (floatRound ((scale : ℤ) : ℚ) * floatRound (((r₁ : ℤ) : ℚ) / 100)) := by
    constructor
    · have h1 : pow2 (-10) ≤ floatRound ((scale : ℤ) : ℚ) * floatRound (((r₁ : ℤ) : ℚ) / 100) := by
        have ha' : (1:ℚ)/2 ≤ floatRound ((scale : ℤ) : ℚ) := by linarith
        have hb' : (1:ℚ)/400 ≤ floatRound (((r₁ : ℤ) : ℚ) / 100) := by
          have h2 : (1:ℚ)/100 ≤ ((r₁ : ℤ) : ℚ) / 100 := by
            apply div_le_div_of_nonneg_right ?_ ?_ <;> first
              | exact_mod_cast hpos
              | norm_num
          linarith
        have h3 : pow2 (-10) = 1 / ((2 ^ 10 : ℕ) : ℚ) := rfl
        rw [h3]
        have h4 : (1:ℚ) / ((2 ^ 10 : ℕ) : ℚ) ≤ 1/2 * (1/400) := by norm_num
        calc (1:ℚ) / ((2 ^ 10 : ℕ) : ℚ) ≤ 1/2 * (1/400) := h4
        _ ≤ floatRound ((scale : ℤ) : ℚ) * floatRound (((r₁ : ℤ) : ℚ) / 100) := by
            apply mul_le_mul ha' hb' (by norm_num) (le_of_lt hc0)
      exact le_trans (pow2_le_pow2 (by norm_num)) h1
    · have h1 : floatRound ((scale : ℤ) : ℚ) * floatRound (((r₁ : ℤ) : ℚ) / 100) ≤ pow2 65 := by
        have ha' : floatRound ((scale : ℤ) : ℚ) ≤ 2 * pow2 63 := by linarith
        have hq₁ub : ((r₁ : ℤ) : ℚ) / 100 ≤ 1 := by
          rw [div_le_one (by norm_num)]
          exact_mod_cast le_trans h12 h100
        have hb' : floatRound (((r₁ : ℤ) : ℚ) / 100) ≤ 2 := by linarith
        have h2 : pow2 65 = 4 * pow2 63 := by
          rw [show (65:ℤ) = 2 + 63 by norm_num, pow2_add]
          norm_num [pow2]
        rw [h2]
        have h3 : (0:ℚ) < pow2 63 := pow2_pos 63
        nlinarith [hb₁pos, hc0]
      exact le_trans h1 (pow2_le_pow2 (by norm_num))
  have hp₂range : InRange (floatRound ((scale : ℤ) : ℚ) * floatRound (((r₂ : ℤ) : ℚ) / 100)) := by
    constructor
    · exact le_trans hp₁range.1 hprod12
    · have h1 : floatRound ((scale : ℤ) : ℚ) * floatRound (((r₂ : ℤ) : ℚ) / 100) ≤ pow2 65 := by
        have ha' : floatRound ((scale : ℤ) : ℚ) ≤ 2 * pow2 63 := by linarith
        have hb' : floatRound (((r₂ : ℤ) : ℚ) / 100) ≤ 2 := by linarith
        have h2 : pow2 65 = 4 * pow2 63 := by
          rw [show (65:ℤ) = 2 + 63 by norm_num, pow2_add]
          norm_num [pow2]
        rw [h2]
        have h3 : (0:ℚ) < pow2 63 := pow2_pos 63
        have hb₂pos : (0:ℚ) < floatRound (((r₂ : ℤ) : ℚ) / 100) :=
          lt_of_lt_of_le hb₁pos hb12
        nlinarith
      exact le_trans h1 (pow2_le_pow2 (by norm_num))
  have hd12 : floatRound (floatRound ((scale : ℤ) : ℚ) * floatRound (((r₁ : ℤ) : ℚ) / 100))
      ≤ floatRound (floatRound ((scale : ℤ) : ℚ) * floatRound (((r₂ : ℤ) : ℚ) / 100)) :=
    floatRound_mono hprod12 (Or.inr hp₁range) hp₂range
  apply goTrunc_mono ?_ hd12
  exact floatRound_nonneg (le_of_lt (inRange_pos hp₁range))

theorem pow2_neg_one : pow2 (-1) = 1 / 2 := by
  with_unfolding_all decide

/-- `2^53 + 1` is the first natural not exactly representable: it rounds
down to `2^53` (tie, even mantissa wins). -/
theorem floatRound_pow53_succ :
    floatRound ((2 ^ 53 + 1 : ℕ) : ℚ) = pow2 53 := by
  have hq : (0:ℚ) < ((2 ^ 53 + 1 : ℕ) : ℚ) := by
    have : 0 < (2 ^ 53 + 1 : ℕ) := by positivity
    exact_mod_cast this
  have hlow : pow2 53 ≤ ((2 ^ 53 + 1 : ℕ) : ℚ) := by
    rw [show pow2 53 = ((2 ^ 53 : ℕ) : ℚ) from rfl]
    exact_mod_cast Nat.le_succ _
  have hhigh : ((2 ^ 53 + 1 : ℕ) : ℚ) < pow2 54 := by
    rw [show pow2 54 = ((2 ^ 54 : ℕ) : ℚ) from rfl]
    exact_mod_cast (by norm_num : (2 ^ 53 + 1 : ℕ) < 2 ^ 54)
  have hrange : InRange ((2 ^ 53 + 1 : ℕ) : ℚ) := by
    constructor
    · calc pow2 (-1100) ≤ pow2 53 := pow2_le_pow2 (by norm_num)
      _ ≤ _ := hlow
    · calc ((2 ^ 53 + 1 : ℕ) : ℚ) ≤ pow2 54 := le_of_lt hhigh
      _ ≤ pow2 1100 := pow2_le_pow2 (by norm_num)
  have hqexp : qexp ((2 ^ 53 + 1 : ℕ) : ℚ) = 53 :=
    qexp_unique hrange hlow (by rw [show (53 + 1 : ℤ) = 54 by norm_num]; exact hhigh)
  rw [floatRound_of_pos hq]
  unfold floatRoundPos
  rw [hqexp, show (52 - 53 : ℤ) = -1 by norm_num]
  have hfloor : ⌊((2 ^ 53 + 1 : ℕ) : ℚ) * pow2 (-1)⌋ = 2 ^ 52 := by
    rw [pow2_neg_one]
    rw [show ((2 ^ 53 + 1 : ℕ) : ℚ) * (1 / 2) = (((2 ^ 53 + 1 : ℤ)) : ℚ) / ((2 : ℕ) : ℚ) by
      push_cast; ring]
    rw [Rat.floor_intCast_div_natCast]
    decide
  have hm : ((2 ^ 53 + 1 : ℕ) : ℚ) * pow2 (-1) - ((2 ^ 52 : ℤ) : ℚ) = 1 / 2 := by
    rw [pow2_neg_one]
    push_cast
    ring
  unfold rhe
  rw [hfloor, hm]
  rw [if_neg (lt_irrefl _), if_neg (lt_irrefl _), if_pos (by decide)]
  rw [show (((2 ^ 52 : ℤ)) : ℚ) = pow2 (Int.ofNat 52) by rw [pow2_ofNat]; push_cast; ring]
  rw [← pow2_add, show Int.ofNat 52 + (53 - 52) = 53 by norm_num]

/-- At `scale = 2^53 + 1` and ratio 100 the loader computes `2^53` rows,
one fewer than `scale`. -/
theorem goTotalRows_pow53_succ : goTotalRows (2 ^ 53 + 1) 100 = 2 ^ 53 := by
  unfold goTotalRows
  rw [show (((100 : ℤ)) : ℚ) = ((100 : ℤ) : ℚ) from rfl]
  rw [floatRound_intCast 100 (by norm_num) (by norm_num)]
  rw [show ((100 : ℤ) : ℚ) / 100 = ((1 : ℤ) : ℚ) by push_cast; norm_num]
  rw [floatRound_intCast 1 (by norm_num) (by norm_num)]
  rw [show ((1 : ℤ) : ℚ) = (1 : ℚ) by push_cast; ring, mul_one]
  rw [show ((2 ^ 53 + 1 : ℤ) : ℚ) = ((2 ^ 53 + 1 : ℕ) : ℚ) by push_cast; ring]
  rw [floatRound_pow53_succ]
  rw [show pow2 53 = ((2 ^ 53 : ℕ) : ℚ) from rfl]
  rw [floatRound_natCast (2 ^ 53) le_rfl]
  rw [show ((2 ^ 53 : ℕ) : ℚ) = ((2 ^ 53 : ℤ) : ℚ) by push_cast; ring]
  rw [goTrunc_intCast _ (by positivity)]

/-! ## Data model: rows and scalars -/

/-- `types.Datum`, as this benchmark uses it: a tagged scalar. Only
integer datums are ever produced here (`types.NewDatum(r.Int())`,
`types.NewIntDatum(handle)`); `unsupported` stands for the datum kinds
the key codec cannot encode. -/
inductive Datum where
  | int (i : Int)
  | unsupported
deriving DecidableEq

/-- `comparableRow` from main.go: ordered key fields, ordered value
fields, and a 64-bit signed handle. -/
structure comparableRow where
  key : List Datum
  val : List Datum
  handle : Int
deriving DecidableEq

/-- `Datum.GetInt64`: the integer payload (zero on a non-integer kind). -/
def getInt64 : Datum → Int
  | .int i => i
  | .unsupported => 0

def exceptToSum {ε α : Type} : Except ε α → ε ⊕ α
  | .error e => .inl e
  | .ok a => .inr a

instance {ε α : Type} [DecidableEq ε] [DecidableEq α] : DecidableEq (Except ε α) :=
  fun x y =>
    decidable_of_iff (exceptToSum x = exceptToSum y)
      (by cases x <;> cases y <;> simp [exceptToSum])

/-! ## Scalar codec (`util/codec`)

The `util/codec` package is imported by main.go but is not part of this
source snapshot, so it is modelled from the spec. -/

/-- Error of the scalar encoder. -/
inductive EncErr where
  | unsupported
deriving DecidableEq

/-- Decode errors of the row codec (`decodeRow`). `truncatedHeader` is
`errors.New("incorrect header")`, `truncatedRecord` is
`errors.New("incorrect row")`, `malformedRecord` is a `codec.Decode`
failure, and `negativeLenPanic` is the `make([]byte, rowSize)` runtime
panic when the decoded length does not fit in a non-negative `int`. -/
inductive DecErr where
  | truncatedHeader
  | truncatedRecord
  | malformedRecord
  | negativeLenPanic
deriving DecidableEq

/-- Tag byte of an integer scalar. -/
def intFlag : Nat := 3

/-- Modelled from the spec: the encoding of one integer scalar in
`util/codec` (absent from this snapshot) — a self-describing tag byte
followed by an 8-byte big-endian payload carrying the 64-bit integer
offset into unsigned order. -/
def datumBytes (i : Int) : List Nat :=
  intFlag :: putBE 8 (toUint64 (i + 2 ^ 63))

/-- Modelled from the spec: encoding one scalar with `util/codec`; a kind
the codec cannot represent yields an error rather than silent truncation. -/
def encodeDatum : Datum → Except EncErr (List Nat)
  | .int i => .ok (datumBytes i)
  | .unsupported => .error .unsupported

/-- Modelled from the spec: `codec.EncodeKey` — appends the ordered
encodings of the given scalars to `b`, failing if any scalar cannot be
represented. -/
def encodeKey (b : List Nat) : List Datum → Except EncErr (List Nat)
  | [] => .ok b
  | d :: ds =>
    match encodeDatum d with
    | .error e => .error e
    | .ok enc => encodeKey (b ++ enc) ds

/-- Modelled from the spec: the scalar-stream decoder underlying
`codec.Decode` — reads tag-prefixed scalars until the payload is
exhausted; an unreadable tag or truncated payload is a malformed record.
Structural fuel (any bound of at least the byte count) keeps it kernel
computable. -/
def decodeDatums : Nat → List Nat → Except DecErr (List Datum)
  | _, [] => .ok []
  | 0, _ :: _ => .error .malformedRecord
  | fuel + 1, t :: rest =>
    if t = intFlag then
      if 8 ≤ rest.length then
        match decodeDatums fuel (rest.drop 8) with
        | .error e => .error e
        | .ok ds => .ok (.int ((readBE (rest.take 8) : Int) - 2 ^ 63) :: ds)
      else .error .malformedRecord
    else .error .malformedRecord

/-- Modelled from the spec: `codec.Decode(b, count)` — decodes the whole
payload into exactly `count` ordered scalars, failing on a different
count or an unreadable tag. -/
def codecDecode (b : List Nat) (count : Nat) : Except DecErr (List Datum) :=
  match decodeDatums b.length b with
  | .error e => .error e
  | .ok ds => if ds.length = count then .ok ds else .error .malformedRecord

/-! ## Row codec (`encodeRow` / `decodeRow`) -/

/-- `encodeRow(b, row)`: key fields, value fields and the handle are
key-encoded into a payload, prefixed by an 8-byte big-endian length, and
the whole record is appended to `b`. On error the original `b` is
returned alongside the error, exactly as in the source. -/
def encodeRow (b : List Nat) (row : comparableRow) : List Nat × Option EncErr :=
  match encodeKey [] row.key with
  | .error e => (b, some e)
  | .ok body₁ =>
    match encodeKey body₁ row.val with
    | .error e => (b, some e)
    | .ok body₂ =>
      match encodeKey body₂ [.int row.handle] with
      | .error e => (b, some e)
      | .ok body => (b ++ putBE 8 body.length ++ body, none)

/-- `decodeRow(fd)` over a byte stream: reads the 8-byte length prefix
(`incorrect header` if short), converts it with Go's `int(uint64)` (a
value at or above `2^63` becomes negative and `make([]byte, rowSize)`
panics), reads the payload (`incorrect row` if short), decodes exactly
`keySize + valSize + 1` scalars and rebuilds the row; returns the rest of
the stream. -/
def decodeRow (keySize valSize : Nat) (s : List Nat) :
    Except DecErr (comparableRow × List Nat) :=
  if (s.take 8).length ≠ 8 then .error .truncatedHeader
  else
    let u := readBE (s.take 8)
    let rest := s.drop 8
    if 2 ^ 63 ≤ u then .error .negativeLenPanic
    else if (rest.take u).length ≠ u then .error .truncatedRecord
    else
      match codecDecode (rest.take u) (keySize + valSize + 1) with
      | .error e => .error e
      | .ok dcod =>
        .ok ({ key := dcod.take keySize,
               val := (dcod.drop keySize).take valSize,
               handle := getInt64 ((dcod.drop (keySize + valSize)).headD .unsupported) },
             rest.drop u)

/-! ## Dataset file header (`encodeMeta` / `decodeMeta`) -/

/-- Dataset metadata. In the source these are the globals `scale`,
`keySize`, `valSize` that `decodeMeta` fills in; the spec's design notes
call for threading them as an explicit value instead. -/
structure Meta where
  scale : Int
  keySize : Int
  valSize : Int
deriving DecidableEq

/-- Header errors of `decodeMeta`: a short read (`incorrect meta data`)
or a non-positive field, each named (`number of rows must be positive`,
`key size must be positive`, `value size must be positive`). -/
inductive MetaErr where
  | truncatedMeta
  | nonPositiveScale
  | nonPositiveKeySize
  | nonPositiveValSize
deriving DecidableEq

/-- `encodeMeta(b, scale, keySize, valSize)`: three 8-byte big-endian
`uint64(...)` fields appended to `b`. -/
def encodeMeta (b : List Nat) (scale keySize valSize : Int) : List Nat :=
  b ++ putBE 8 (toUint64 scale) ++ putBE 8 (toUint64 keySize) ++
    putBE 8 (toUint64 valSize)

/-- `decodeMeta(fd)`: reads the 24-byte header, splits it into three
8-byte big-endian integers, validates each is strictly positive in
order, and returns the metadata with the rest of the stream. -/
def decodeMeta (s : List Nat) : Except MetaErr (Meta × List Nat) :=
  if (s.take 24).length ≠ 24 then .error .truncatedMeta
  else
    let scale := toSigned (readBE (s.take 8))
    if scale ≤ 0 then .error .nonPositiveScale
    else
      let keySize := toSigned (readBE ((s.drop 8).take 8))
      if keySize ≤ 0 then .error .nonPositiveKeySize
      else
        let valSize := toSigned (readBE ((s.drop 16).take 8))
        if valSize ≤ 0 then .error .nonPositiveValSize
        else .ok (⟨scale, keySize, valSize⟩, s.drop 24)

/-! ## Bounded loader (`load`) and generator (`export`) -/

/-- Errors surfaced by `load`. -/
inductive LoadErr where
  | meta (e : MetaErr)
  | row (e : DecErr)
deriving DecidableEq

/-- The record loop of `load`: decode `n` consecutive records, appending
each decoded row in file order; any failure aborts the whole loop with
that error and no partial result. -/
def loadRows (keySize valSize : Nat) : Nat → List Nat →
    Except DecErr (List comparableRow × List Nat)
  | 0, s => .ok ([], s)
  | n + 1, s =>
    match decodeRow keySize valSize s with
    | .error e => .error e
    | .ok (row, s') =>
      match loadRows keySize valSize n s' with
      | .error e => .error e
      | .ok (rows, s'') => .ok (row :: rows, s'')

/-- `load(ratio)` over the file's byte stream: validate the header, then
decode `totalRows = int(float64(scale) * (float64(ratio)/100.0))`
records in file order. -/
def load (s : List Nat) (ratio : Int) : Except LoadErr (List comparableRow) :=
  match decodeMeta s with
  | .error e => .error (.meta e)
  | .ok (m, s₁) =>
    match loadRows m.keySize.toNat m.valSize.toNat
        (goTotalRows m.scale ratio).toNat s₁ with
    | .error e => .error (.row e)
    | .ok (rows, _) => .ok rows

/-- The row loop of `export`: encode each row in turn into the growing
output buffer, aborting on the first failure as the source does. -/
def encodeRows (b : List Nat) : List comparableRow → List Nat × Option EncErr
  | [] => (b, none)
  | r :: rs =>
    match encodeRow b r with
    | (b', none) => encodeRows b' rs
    | (b', some e) => (b', some e)

/-- `export` minus file I/O, with the pseudo-random row source abstracted
to the given row list (modelled from the spec, which treats value
generation as a pluggable external source): the 24-byte header followed
by every encoded row. -/
def exportBytes (scale keySize valSize : Int) (rows : List comparableRow) :
    List Nat × Option EncErr :=
  encodeRows (encodeMeta [] scale keySize valSize) rows

/-- An integer datum whose payload fits a 64-bit signed integer — the
only scalars this benchmark produces. -/
def datumOk : Datum → Bool
  | .int i => decide (-2 ^ 63 ≤ i) && decide (i < 2 ^ 63)
  | .unsupported => false

/-- A row of the dataset shape: `keySize` integer key fields, `valSize`
integer value fields, and an in-range handle. -/
def rowOk (keySize valSize : Nat) (r : comparableRow) : Bool :=
  decide (r.key.length = keySize) && decide (r.val.length = valSize) &&
  r.key.all datumOk && r.val.all datumOk &&
  decide (-2 ^ 63 ≤ r.handle) && decide (r.handle < 2 ^ 63)

/-! ## Codec round-trip lemmas -/

/-- The bytes of one datum, as a total function (only ever applied to
encodable datums in the lemmas below). -/
def datumEnc : Datum → List Nat
  | .int i => datumBytes i
  | .unsupported => []

theorem encodeDatum_eq_enc (d : Datum) (h : datumOk d = true) :
    encodeDatum d = .ok (datumEnc d) := by
  cases d with
  | int i => rfl
  | unsupported => simp [datumOk] at h

theorem datumEnc_length (d : Datum) (h : datumOk d = true) :
    (datumEnc d).length = 9 := by
  cases d with
  | int i => simp [datumEnc, datumBytes, length_putBE]
  | unsupported => simp [datumOk] at h

theorem encodeKey_ok (ds : List Datum) (h : ds.all datumOk = true) :
    ∀ b, encodeKey b ds = .ok (b ++ (ds.map datumEnc).join) := by
  induction ds with
  | nil => intro b; simp [encodeKey]
  | cons d ds ih =>
    intro b
    rw [List.all_cons, Bool.and_eq_true] at h
    rw [encodeKey, encodeDatum_eq_enc d h.1]
    show encodeKey (b ++ datumEnc d) ds = _
    rw [ih h.2 (b ++ datumEnc d)]
    simp

theorem datumsBytes_length (ds : List Datum) (h : ds.all datumOk = true) :
    ((ds.map datumEnc).join).length = 9 * ds.length := by
  induction ds with
  | nil => simp
  | cons d ds ih =>
    rw [List.all_cons, Bool.and_eq_true] at h
    simp only [List.map_cons, List.join_cons, List.length_append,
      datumEnc_length d h.1, ih h.2, List.length_cons]
    ring

theorem decodeDatums_nil (fuel : Nat) : decodeDatums fuel [] = .ok [] := by
  cases fuel <;> rfl

theorem decodeDatums_enc (ds : List Datum) (h : ds.all datumOk = true) :
    ∀ fuel, ((ds.map datumEnc).join).length ≤ fuel →
      decodeDatums fuel ((ds.map datumEnc).join) = .ok ds := by
  induction ds with
  | nil => intro fuel _; simp [decodeDatums_nil]
  | cons d ds ih =>
    intro fuel hfuel
    rw [List.all_cons, Bool.and_eq_true] at h
    obtain ⟨i, rfl⟩ : ∃ i, d = .int i := by
      cases d with
      | int i => exact ⟨i, rfl⟩
      | unsupported => simp [datumOk] at h
    have hok := h.1
    have hi : -2 ^ 63 ≤ i ∧ i < 2 ^ 63 := by
      simpa [datumOk] using hok
    have hjoin : ((Datum.int i :: ds).map datumEnc).join
        = intFlag :: (putBE 8 (toUint64 (i + 2 ^ 63)) ++ (ds.map datumEnc).join) := by
      simp [datumEnc, datumBytes]
    rw [hjoin] at hfuel ⊢
    have hlen8 : (putBE 8 (toUint64 (i + 2 ^ 63))).length = 8 := length_putBE 8 _
    obtain ⟨f, rfl⟩ : ∃ f, fuel = f + 1 := by
      cases fuel with
      | zero => simp at hfuel
      | succ f => exact ⟨f, rfl⟩
    rw [decodeDatums, if_pos rfl]
    rw [if_pos (by rw [List.length_append, hlen8]; omega)]
    rw [List.drop_left' hlen8, List.take_left' hlen8]
    have hrest : ((ds.map datumEnc).join).length ≤ f := by
      simp only [List.length_cons, List.length_append, hlen8] at hfuel
      omega
    rw [ih h.2 f hrest]
    have hval : (readBE (putBE 8 (toUint64 (i + 2 ^ 63))) : Int) - 2 ^ 63 = i := by
      rw [readBE_putBE]
      unfold toUint64
      have h256 : (256 : ℕ) ^ 8 = 2 ^ 64 := by norm_num
      rw [h256]
      omega
    rw [hval]

theorem codecDecode_enc (ds : List Datum) (h : ds.all datumOk = true) :
    codecDecode ((ds.map datumEnc).join) ds.length = .ok ds := by
  unfold codecDecode
  rw [decodeDatums_enc ds h _ le_rfl]
  simp

/-! ## Record round-trip lemmas -/

/-- The payload of one encoded row: key scalars, value scalars, handle. -/
def rowBodyBytes (r : comparableRow) : List Nat :=
  (((r.key ++ r.val ++ [Datum.int r.handle]).map datumEnc)).join

/-- The full record: 8-byte length prefix plus payload. -/
def recordBytes (r : comparableRow) : List Nat :=
  putBE 8 (rowBodyBytes r).length ++ rowBodyBytes r

theorem rowOk_parts {ks vs : Nat} {r : comparableRow} (h : rowOk ks vs r = true) :
    r.key.length = ks ∧ r.val.length = vs ∧ r.key.all datumOk = true ∧
      r.val.all datumOk = true ∧ -2 ^ 63 ≤ r.handle ∧ r.handle < 2 ^ 63 := by
  unfold rowOk at h
  simp only [Bool.and_eq_true, decide_eq_true_eq] at h
  tauto

theorem rowOk_all {ks vs : Nat} {r : comparableRow} (h : rowOk ks vs r = true) :
    (r.key ++ r.val ++ [Datum.int r.handle]).all datumOk = true := by
  obtain ⟨_, _, hk, hv, hh1, hh2⟩ := rowOk_parts h
  simp only [List.all_append, Bool.and_eq_true]
  refine ⟨⟨hk, hv⟩, ?_⟩
  simp only [List.all_cons, List.all_nil, Bool.and_true, datumOk,
    Bool.and_eq_true, decide_eq_true_eq]
  omega

theorem rowBodyBytes_length {ks vs : Nat} {r : comparableRow}
    (h : rowOk ks vs r = true) : (rowBodyBytes r).length = 9 * (ks + vs + 1) := by
  obtain ⟨hk, hv, _, _, _, _⟩ := rowOk_parts h
  unfold rowBodyBytes
  rw [datumsBytes_length _ (rowOk_all h)]
  simp [hk, hv]
  ring

theorem encodeRow_ok {ks vs : Nat} (b : List Nat) (r : comparableRow)
    (h : rowOk ks vs r = true) :
    encodeRow b r = (b ++ recordBytes r, none) := by
  obtain ⟨hk, hv, hka, hva, hh1, hh2⟩ := rowOk_parts h
  have hhok : ([Datum.int r.handle]).all datumOk = true := by
    simp only [List.all_cons, List.all_nil, Bool.and_true, datumOk,
      Bool.and_eq_true, decide_eq_true_eq]
    omega
  have e1 := encodeKey_ok r.key hka []
  have e2 := encodeKey_ok r.val hva ([] ++ (r.key.map datumEnc).join)
  have e3 := encodeKey_ok [Datum.int r.handle] hhok
    (([] ++ (r.key.map datumEnc).join) ++ (r.val.map datumEnc).join)
  simp only [encodeRow, e1, e2, e3]
  unfold recordBytes rowBodyBytes
  simp [List.append_assoc]

theorem recordBytes_length {ks vs : Nat} {r : comparableRow}
    (h : rowOk ks vs r = true) :
    (recordBytes r).length = 8 + 9 * (ks + vs + 1) := by
  unfold recordBytes
  rw [List.length_append, length_putBE, rowBodyBytes_length h]

/-- Decoding a well-formed record consumes exactly its bytes and returns
the original row. -/
theorem decodeRow_record {ks vs : Nat} (r : comparableRow) (rest : List Nat)
    (h : rowOk ks vs r = true) (hsz : ks + vs < 2 ^ 59) :
    decodeRow ks vs (recordBytes r ++ rest) = .ok (r, rest) := by
  obtain ⟨hk, hv, hka, hva, hh1, hh2⟩ := rowOk_parts h
  have hbody := rowBodyBytes_length h
  have hL63 : (rowBodyBytes r).length < 2 ^ 63 := by omega
  have hassoc : recordBytes r ++ rest
      = putBE 8 (rowBodyBytes r).length ++ (rowBodyBytes r ++ rest) := by
    unfold recordBytes
    simp [List.append_assoc]
  rw [hassoc]
  unfold decodeRow
  rw [List.take_left' (length_putBE 8 _)]
  rw [if_neg (by rw [length_putBE]; omega)]
  rw [List.drop_left' (length_putBE 8 _)]
  rw [readBE_putBE]
  have hmod : (rowBodyBytes r).length % 256 ^ 8 = (rowBodyBytes r).length := by
    have : (256 : ℕ) ^ 8 = 2 ^ 64 := by norm_num
    rw [this]
    omega
  rw [hmod]
  rw [if_neg (by omega)]
  rw [List.take_left' rfl]
  rw [if_neg (by simp)]
  have hds : rowBodyBytes r
      = (((r.key ++ r.val ++ [Datum.int r.handle]).map datumEnc)).join := rfl
  have hcount : (r.key ++ r.val ++ [Datum.int r.handle]).length = ks + vs + 1 := by
    simp [hk, hv]
    omega
  rw [hds, show ks + vs + 1 = (r.key ++ r.val ++ [Datum.int r.handle]).length from
    hcount.symm]
  rw [codecDecode_enc _ (rowOk_all h)]
  rw [List.drop_left' rfl]
  have htake : (r.key ++ r.val ++ [Datum.int r.handle]).take ks = r.key := by
    rw [List.append_assoc]
    exact List.take_left' hk
  have hdrop : (r.key ++ r.val ++ [Datum.int r.handle]).drop ks
      = r.val ++ [Datum.int r.handle] := by
    rw [List.append_assoc]
    exact List.drop_left' hk
  have hval2 : ((r.key ++ r.val ++ [Datum.int r.handle]).drop ks).take vs = r.val := by
    rw [hdrop]
    exact List.take_left' hv
  have hhd : (r.key ++ r.val ++ [Datum.int r.handle]).drop (ks + vs)
      = [Datum.int r.handle] :=
    List.drop_left' (by simp [hk, hv])
  simp only [htake, hval2, hhd, List.headD_cons, getInt64]

/-! ## Loader loop lemmas -/

theorem loadRows_length {ks vs : Nat} :
    ∀ (n : Nat) (s : List Nat) (rows : List comparableRow) (s' : List Nat),
      loadRows ks vs n s = .ok (rows, s') → rows.length = n := by
  intro n
  induction n with
  | zero =>
    intro s rows s' h
    rw [loadRows] at h
    cases h
    rfl
  | succ n ih =>
    intro s rows s' h
    rw [loadRows] at h
    cases hdec : decodeRow ks vs s with
    | error e => simp [hdec] at h
    | ok p =>
      obtain ⟨row, s₁⟩ := p
      simp only [hdec] at h
      cases hrec : loadRows ks vs n s₁ with
      | error e => simp [hrec] at h
      | ok q =>
        obtain ⟨rows', s₂⟩ := q
        simp only [hrec] at h
        cases h
        simp only [List.length_cons, ih s₁ rows' _ hrec]

/-- Reading `n ≤ |rs|` records from the concatenation of the records of
`rs` (followed by anything) yields the first `n` rows and leaves the
remaining records. -/
theorem loadRows_records {ks vs : Nat} (hsz : ks + vs < 2 ^ 59) :
    ∀ (n : Nat) (rs : List comparableRow), rs.all (rowOk ks vs) = true →
      n ≤ rs.length → ∀ rest,
      loadRows ks vs n ((rs.map recordBytes).join ++ rest)
        = .ok (rs.take n, ((rs.drop n).map recordBytes).join ++ rest) := by
  intro n
  induction n with
  | zero =>
    intro rs _ _ rest
    rw [loadRows]
    simp
  | succ n ih =>
    intro rs hall hlen rest
    obtain ⟨r, rs', rfl⟩ : ∃ r rs', rs = r :: rs' := by
      cases rs with
      | nil => simp at hlen
      | cons r rs' => exact ⟨r, rs', rfl⟩
    rw [List.all_cons, Bool.and_eq_true] at hall
    have hjoin : ((r :: rs').map recordBytes).join ++ rest
        = recordBytes r ++ ((rs'.map recordBytes).join ++ rest) := by
      simp [List.append_assoc]
    rw [loadRows, hjoin]
    simp only [decodeRow_record r ((rs'.map recordBytes).join ++ rest) hall.1 hsz,
      ih rs' hall.2 (by simpa using hlen) rest]
    simp

/-- A decode failure at record `k < n` aborts the whole loop with that
error. -/
theorem loadRows_error {ks vs : Nat} :
    ∀ (k n : Nat) (s : List Nat) (rows : List comparableRow) (s₂ : List Nat)
      (e : DecErr), k < n → loadRows ks vs k s = .ok (rows, s₂) →
      decodeRow ks vs s₂ = .error e → loadRows ks vs n s = .error e := by
  intro k
  induction k with
  | zero =>
    intro n s rows s₂ e hk hok herr
    rw [loadRows] at hok
    cases hok
    obtain ⟨m, rfl⟩ : ∃ m, n = m + 1 := by
      cases n with
      | zero => omega
      | succ m => exact ⟨m, rfl⟩
    rw [loadRows, herr]
  | succ k ih =>
    intro n s rows s₂ e hk hok herr
    obtain ⟨m, rfl⟩ : ∃ m, n = m + 1 := by
      cases n with
      | zero => omega
      | succ m => exact ⟨m, rfl⟩
    rw [loadRows] at hok ⊢
    cases hdec : decodeRow ks vs s with
    | error e' => simp [hdec] at hok
    | ok p =>
      obtain ⟨row, s₁⟩ := p
      simp only [hdec] at hok
      cases hrec : loadRows ks vs k s₁ with
      | error e' => simp [hrec] at hok
      | ok q =>
        obtain ⟨rows', sq⟩ := q
        simp only [hrec] at hok
        cases hok
        simp only []
        rw [ih m s₁ rows' s₂ e (by omega) hrec herr]

/-! ## Header lemmas -/

theorem toUint64_lt (z : Int) : toUint64 z < 2 ^ 64 := by
  unfold toUint64
  omega

/-- What `decodeMeta` does on any 24-byte header followed by anything:
the three fields are validated for strict positivity in order. -/
theorem decodeMeta_triple (a b c : Nat) (ha : a < 2 ^ 64) (hb : b < 2 ^ 64)
    (hc : c < 2 ^ 64) (rest : List Nat) :
    decodeMeta (putBE 8 a ++ (putBE 8 b ++ (putBE 8 c ++ rest)))
      = if toSigned a ≤ 0 then .error .nonPositiveScale
        else if toSigned b ≤ 0 then .error .nonPositiveKeySize
        else if toSigned c ≤ 0 then .error .nonPositiveValSize
        else .ok (⟨toSigned a, toSigned b, toSigned c⟩, rest) := by
  have h256 : (256:ℕ) ^ 8 = 2 ^ 64 := by norm_num
  have hlen : (putBE 8 a ++ (putBE 8 b ++ (putBE 8 c ++ rest))).length
      = 24 + rest.length := by
    simp [length_putBE]
    omega
  have h16 : putBE 8 a ++ (putBE 8 b ++ (putBE 8 c ++ rest))
      = (putBE 8 a ++ putBE 8 b) ++ (putBE 8 c ++ rest) := by
    simp [List.append_assoc]
  have h24 : putBE 8 a ++ (putBE 8 b ++ (putBE 8 c ++ rest))
      = ((putBE 8 a ++ putBE 8 b) ++ putBE 8 c) ++ rest := by
    simp [List.append_assoc]
  have hd16 : (putBE 8 a ++ (putBE 8 b ++ (putBE 8 c ++ rest))).drop 16
      = putBE 8 c ++ rest := by
    rw [h16]
    exact List.drop_left' (by simp [length_putBE])
  have hd24 : (putBE 8 a ++ (putBE 8 b ++ (putBE 8 c ++ rest))).drop 24 = rest := by
    rw [h24]
    exact List.drop_left' (by simp [length_putBE])
  unfold decodeMeta
  rw [if_neg (by rw [List.length_take, hlen]; omega)]
  rw [List.take_left' (length_putBE 8 a), readBE_putBE, h256, Nat.mod_eq_of_lt ha]
  rw [List.drop_left' (length_putBE 8 a), List.take_left' (length_putBE 8 b),
    readBE_putBE, h256, Nat.mod_eq_of_lt hb]
  rw [hd16, List.take_left' (length_putBE 8 c), readBE_putBE, h256,
    Nat.mod_eq_of_lt hc]
  rw [hd24]

/-! ## Generator lemmas -/

theorem encodeRows_ok {ks vs : Nat} (rs : List comparableRow)
    (h : rs.all (rowOk ks vs) = true) :
    ∀ b, encodeRows b rs = (b ++ (rs.map recordBytes).join, none) := by
  induction rs with
  | nil => intro b; simp [encodeRows]
  | cons r rs ih =>
    intro b
    rw [List.all_cons, Bool.and_eq_true] at h
    rw [encodeRows]
    simp only [encodeRow_ok b r h.1]
    rw [ih h.2]
    simp [List.append_assoc]

theorem exportBytes_ok {ks vs : Nat} (scale : Int) (rs : List comparableRow)
    (h : rs.all (rowOk ks vs) = true) :
    exportBytes scale (ks : Int) (vs : Int) rs
      = (encodeMeta [] scale (ks : Int) (vs : Int) ++ (rs.map recordBytes).join,
         none) := by
  unfold exportBytes
  rw [encodeRows_ok rs h]

theorem records_join_length {ks vs : Nat} (rs : List comparableRow)
    (h : rs.all (rowOk ks vs) = true) :
    ((rs.map recordBytes).join).length = rs.length * (8 + 9 * (ks + vs + 1)) := by
  induction rs with
  | nil => simp
  | cons r rs ih =>
    rw [List.all_cons, Bool.and_eq_true] at h
    simp only [List.map_cons, List.join_cons, List.length_append,
      recordBytes_length h.1, ih h.2, List.length_cons]
    ring

theorem encodeMeta_length (b : List Nat) (x y z : Int) :
    (encodeMeta b x y z).length = b.length + 24 := by
  simp [encodeMeta, length_putBE]

/-! ## Loader on well-formed files -/

/-- Loading a freshly generated file reads exactly
`totalRows = int(float64(scale)·(float64(ratio)/100))` records and
returns that prefix of the generated rows, in order. -/
theorem load_file (ks vs : Nat) (rows : List comparableRow) (ratio : Int)
    (hsz : ks + vs < 2 ^ 59)
    (hk0 : 0 < ks) (hv0 : 0 < vs)
    (hk63 : (ks : Int) < 2 ^ 63) (hv63 : (vs : Int) < 2 ^ 63)
    (hall : rows.all (rowOk ks vs) = true)
    (hpos : 0 < rows.length) (hs63 : ((rows.length : ℕ) : Int) < 2 ^ 63)
    (hn : (goTotalRows (rows.length : Int) ratio).toNat ≤ rows.length) :
    load (encodeMeta [] (rows.length : Int) (ks : Int) (vs : Int)
        ++ (rows.map recordBytes).join) ratio
      = .ok (rows.take (goTotalRows (rows.length : Int) ratio).toNat) := by
  have hshape : encodeMeta [] (rows.length : Int) (ks : Int) (vs : Int)
        ++ (rows.map recordBytes).join
      = putBE 8 (toUint64 (rows.length : Int))
          ++ (putBE 8 (toUint64 (ks : Int))
            ++ (putBE 8 (toUint64 (vs : Int)) ++ (rows.map recordBytes).join)) := by
    simp [encodeMeta, List.append_assoc]
  unfold load
  rw [hshape,
    decodeMeta_triple _ _ _ (toUint64_lt _) (toUint64_lt _) (toUint64_lt _) _]
  have hsg : toSigned (toUint64 (rows.length : Int)) = (rows.length : Int) :=
    toSigned_toUint64 _ (by omega) hs63
  have hkg : toSigned (toUint64 (ks : Int)) = (ks : Int) :=
    toSigned_toUint64 _ (by omega) hk63
  have hvg : toSigned (toUint64 (vs : Int)) = (vs : Int) :=
    toSigned_toUint64 _ (by omega) hv63
  rw [hsg, hkg, hvg]
  rw [if_neg (by exact_mod_cast not_le.mpr (by exact_mod_cast hpos : (0:ℤ) < rows.length))]
  rw [if_neg (by exact_mod_cast not_le.mpr (by exact_mod_cast hk0 : (0:ℤ) < ks))]
  rw [if_neg (by exact_mod_cast not_le.mpr (by exact_mod_cast hv0 : (0:ℤ) < vs))]
  simp only [Int.toNat_natCast]
  have hrecords := loadRows_records hsz
    (goTotalRows (rows.length : Int) ratio).toNat rows hall hn []
  rw [List.append_nil] at hrecords
  rw [hrecords]

theorem readBE_lt (l : List Nat) (h : l.all (fun x => decide (x < 256)) = true) :
    readBE l < 256 ^ l.length := by
  induction l using List.reverseRecOn with
  | nil => simp [readBE]
  | append_singleton xs x ih =>
    rw [List.all_append] at h
    rw [Bool.and_eq_true] at h
    have hx : x < 256 := by simpa using h.2
    have hxs := ih h.1
    rw [readBE_append]
    simp only [List.foldl_cons, List.foldl_nil, List.length_append,
      List.length_singleton]
    calc readBE xs * 256 + x < (readBE xs + 1) * 256 := by omega
    _ ≤ 256 ^ xs.length * 256 := by
        have : readBE xs + 1 ≤ 256 ^ xs.length := hxs
        exact Nat.mul_le_mul_right 256 this
    _ = 256 ^ (xs.length + 1) := by rw [pow_succ]

theorem toSigned_bounds (u : Nat) (h : u < 2 ^ 64) :
    -2 ^ 63 ≤ toSigned u ∧ toSigned u < 2 ^ 63 := by
  unfold toSigned
  split <;> omega

/-- A successful header decode yields strictly positive fields below
`2^63`, provided the stream really is a byte stream. -/
theorem decodeMeta_ok_bounds {s : List Nat} {m : Meta} {s' : List Nat}
    (hbytes : s.all (fun x => decide (x < 256)) = true)
    (h : decodeMeta s = .ok (m, s')) :
    0 < m.scale ∧ m.scale < 2 ^ 63 := by
  have htake : (s.take 8).all (fun x => decide (x < 256)) = true := by
    rw [List.all_eq_true] at hbytes ⊢
    intro x hx
    exact hbytes x (List.mem_of_mem_take hx)
  have hr : readBE (s.take 8) < 2 ^ 64 := by
    have h1 := readBE_lt (s.take 8) htake
    have h2 : (256:ℕ) ^ (s.take 8).length ≤ 256 ^ 8 := by
      apply Nat.pow_le_pow_right (by norm_num)
      rw [List.length_take]
      omega
    have h3 : (256:ℕ) ^ 8 = 2 ^ 64 := by norm_num
    omega
  obtain ⟨hb1, hb2⟩ := toSigned_bounds _ hr
  unfold decodeMeta at h
  dsimp only at h
  split_ifs at h with h1 h2 h3 h4
  injection h with h5
  injection h5 with h6 h7
  rw [← h6]
  simp only
  omega

/-! ## Claim theorems -/

/-- C1: for every pair of positive field counts `(keySize, valSize)` (as
Go `int` values backing real slices, hence bounded) and every row of that
shape whose scalars and handle are 64-bit signed integers, decoding the
bytes produced by the row encoder yields the original row, field for
field including the handle, consuming the record exactly. -/
theorem c1_row_roundtrip (ks vs : Nat) (row : comparableRow)
    (hks : 0 < ks) (hvs : 0 < vs) (hsz : ks + vs < 2 ^ 59)
    (h : rowOk ks vs row = true) :
    (encodeRow [] row).2 = none ∧
      decodeRow ks vs (encodeRow [] row).1 = .ok (row, []) := by
  rw [encodeRow_ok [] row h]
  refine ⟨rfl, ?_⟩
  simpa using decodeRow_record row [] h hsz

theorem c1_row_roundtrip_witness :
    (encodeRow [] ⟨[.int 1, .int 2], [.int 3], 5⟩).2 = none ∧
      decodeRow 2 1 (encodeRow [] ⟨[.int 1, .int 2], [.int 3], 5⟩).1
        = .ok (⟨[.int 1, .int 2], [.int 3], 5⟩, []) :=
  c1_row_roundtrip 2 1 ⟨[.int 1, .int 2], [.int 3], 5⟩ (by norm_num)
    (by norm_num) (by norm_num) (by decide)

/-- C2 (counterexample): `int(float64(100) * (float64(29)/100.0))` is 28,
while `floor(100·29/100) = 29`: the claimed exact floor semantics fail. -/
theorem c2_totalRows_counterexample :
    goTotalRows 100 29 = 28 ∧ ((100 * 29 : Int)) / 100 = 29 ∧
      goTotalRows 100 29 ≠ ((100 * 29 : Int)) / 100 := by
  refine ⟨?_, by decide, ?_⟩
  · with_unfolding_all decide
  · intro hcontra
    rw [show ((100 * 29 : Int)) / 100 = 29 by decide] at hcontra
    have h28 : goTotalRows 100 29 = 28 := by with_unfolding_all decide
    omega

/-- C2 (amended): `totalRows` is the double-precision computation
`int(float64(scale) * (float64(ratio)/100.0))`, which can fall below
`floor(scale·ratio/100)`. Ratio 0 loads zero records; ratio 100 loads
exactly `scale` records whenever `scale ≤ 2^53`; and the count always
lies in `[0, scale]`. -/
theorem c2_totalRows_amended (scale ratio : Int) (h0 : 0 < scale)
    (h53 : scale ≤ 2 ^ 53) (hr0 : 0 ≤ ratio) (hr100 : ratio ≤ 100) :
    goTotalRows scale 0 = 0 ∧ goTotalRows scale 100 = scale ∧
      0 ≤ goTotalRows scale ratio ∧ goTotalRows scale ratio ≤ scale := by
  refine ⟨goTotalRows_zero_ratio scale,
    goTotalRows_hundred scale (by omega) h53,
    goTotalRows_nonneg _ _ (by omega) hr0, ?_⟩
  calc goTotalRows scale ratio ≤ goTotalRows scale 100 :=
      goTotalRows_mono scale ratio 100 (by omega) (by omega) hr0 hr100 le_rfl
  _ = scale := goTotalRows_hundred scale (by omega) h53

theorem c2_totalRows_amended_witness :
    goTotalRows 7 0 = 0 ∧ goTotalRows 7 100 = 7 ∧
      0 ≤ goTotalRows 7 50 ∧ goTotalRows 7 50 ≤ 7 :=
  c2_totalRows_amended 7 50 (by norm_num) (by norm_num) (by norm_num)
    (by norm_num)

/-- C3: for all strictly positive `(scale, keySize, valSize)` (64-bit
signed `int` values), the header writer emits 24 bytes and the header
reader returns the original triple. -/
theorem c3_header_roundtrip (scale ks vs : Int)
    (hs : 0 < scale) (hs' : scale < 2 ^ 63) (hk : 0 < ks) (hk' : ks < 2 ^ 63)
    (hv : 0 < vs) (hv' : vs < 2 ^ 63) :
    (encodeMeta [] scale ks vs).length = 24 ∧
      decodeMeta (encodeMeta [] scale ks vs) = .ok (⟨scale, ks, vs⟩, []) := by
  refine ⟨by simpa using encodeMeta_length [] scale ks vs, ?_⟩
  have hshape : encodeMeta [] scale ks vs
      = putBE 8 (toUint64 scale)
          ++ (putBE 8 (toUint64 ks) ++ (putBE 8 (toUint64 vs) ++ [])) := by
    simp [encodeMeta, List.append_assoc]
  rw [hshape,
    decodeMeta_triple _ _ _ (toUint64_lt _) (toUint64_lt _) (toUint64_lt _) []]
  rw [toSigned_toUint64 scale (by omega) hs', toSigned_toUint64 ks (by omega) hk',
    toSigned_toUint64 vs (by omega) hv']
  rw [if_neg (by omega), if_neg (by omega), if_neg (by omega)]

theorem c3_header_roundtrip_witness :
    (encodeMeta [] 5 2 3).length = 24 ∧
      decodeMeta (encodeMeta [] 5 2 3) = .ok (⟨5, 2, 3⟩, []) :=
  c3_header_roundtrip 5 2 3 (by norm_num) (by norm_num) (by norm_num)
    (by norm_num) (by norm_num) (by norm_num)

/-- C10: whenever the row encoder fails, it returns the caller's buffer
unchanged — no length header or partial payload is appended on any error
path. -/
theorem c10_encoder_error_path (b : List Nat) (row : comparableRow) (e : EncErr)
    (h : (encodeRow b row).2 = some e) : (encodeRow b row).1 = b := by
  unfold encodeRow at h ⊢
  cases h1 : encodeKey [] row.key with
  | error e1 => simp [h1]
  | ok body₁ =>
    cases h2 : encodeKey body₁ row.val with
    | error e2 => simp [h1, h2]
    | ok body₂ =>
      cases h3 : encodeKey body₂ [.int row.handle] with
      | error e3 => simp [h1, h2, h3]
      | ok body => simp [h1, h2, h3] at h

theorem c10_encoder_error_path_witness :
    (encodeRow [1, 2] ⟨[.unsupported], [.int 0], 0⟩).1 = [1, 2] :=
  c10_encoder_error_path [1, 2] ⟨[.unsupported], [.int 0], 0⟩ .unsupported
    (by decide)

/-- C4 (counterexample): on a stream whose 8-byte length prefix encodes
`2^63` (with no payload following — fewer than `L` bytes available), the
decoder does not fail with the truncated-record error: Go's
`int(binary.BigEndian.Uint64(head))` turns the length negative and
`make([]byte, rowSize)` panics. -/
theorem c4_truncation_counterexample :
    readBE (([128, 0, 0, 0, 0, 0, 0, 0] : List Nat).take 8) = 2 ^ 63 ∧
    ([128, 0, 0, 0, 0, 0, 0, 0] : List Nat).length - 8
        < readBE (([128, 0, 0, 0, 0, 0, 0, 0] : List Nat).take 8) ∧
    decodeRow 1 1 [128, 0, 0, 0, 0, 0, 0, 0] = .error .negativeLenPanic ∧
    decodeRow 1 1 [128, 0, 0, 0, 0, 0, 0, 0] ≠ .error .truncatedRecord := by
  refine ⟨by decide, by decide, by decide, by decide⟩

/-- C4 (amended): the decoder fails with the truncated-header error when
fewer than 8 bytes are available, and — for lengths `L < 2^63` — with the
truncated-record error when fewer than `L` payload bytes are available;
a length at or above `2^63` instead aborts with the negative-length
panic; and a successfully decoded row always consumed a full `8 + L`
bytes, never a short read. -/
theorem c4_decode_truncation (ks vs : Nat) (s : List Nat) :
    (s.length < 8 → decodeRow ks vs s = .error .truncatedHeader) ∧
    (8 ≤ s.length → readBE (s.take 8) < 2 ^ 63 →
      s.length - 8 < readBE (s.take 8) →
      decodeRow ks vs s = .error .truncatedRecord) ∧
    (8 ≤ s.length → 2 ^ 63 ≤ readBE (s.take 8) →
      decodeRow ks vs s = .error .negativeLenPanic) ∧
    (∀ r s', decodeRow ks vs s = .ok (r, s') →
      readBE (s.take 8) + 8 ≤ s.length) := by
  refine ⟨?_, ?_, ?_, ?_⟩
  · intro hshort
    unfold decodeRow
    rw [if_pos (by rw [List.length_take]; omega)]
  · intro h8 hL hshort
    unfold decodeRow
    rw [if_neg (by rw [List.length_take]; omega)]
    rw [if_neg (by omega)]
    rw [if_pos (by rw [List.length_take, List.length_drop]; omega)]
  · intro h8 hL
    unfold decodeRow
    rw [if_neg (by rw [List.length_take]; omega)]
    rw [if_pos hL]
  · intro r s' h
    by_contra hshort
    push_neg at hshort
    by_cases h8 : s.length < 8
    · unfold decodeRow at h
      rw [if_pos (by rw [List.length_take]; omega)] at h
      exact Except.noConfusion h
    push_neg at h8
    by_cases hL : 2 ^ 63 ≤ readBE (s.take 8)
    · unfold decodeRow at h
      rw [if_neg (by rw [List.length_take]; omega), if_pos hL] at h
      exact Except.noConfusion h
    push_neg at hL
    unfold decodeRow at h
    rw [if_neg (by rw [List.length_take]; omega), if_neg (by omega),
      if_pos (by rw [List.length_take, List.length_drop]; omega)] at h
    exact Except.noConfusion h

theorem c4_decode_truncation_witness :
    decodeRow 1 1 [0, 0, 0, 0, 0, 0, 0, 3] = .error .truncatedRecord :=
  (c4_decode_truncation 1 1 [0, 0, 0, 0, 0, 0, 0, 3]).2.1 (by decide)
    (by decide) (by decide)

/-- C5: a 24-byte header with any non-positive field is rejected with the
invalid-metadata error naming the first offending field — and `load`
surfaces exactly that error without decoding any record, whatever the
ratio and whatever record bytes follow; a header with all three fields
strictly positive yields the populated metadata. -/
theorem c5_meta_validation (a b c : Nat) (ha : a < 2 ^ 64) (hb : b < 2 ^ 64)
    (hc : c < 2 ^ 64) (rest : List Nat) :
    (toSigned a ≤ 0 →
      decodeMeta (putBE 8 a ++ (putBE 8 b ++ (putBE 8 c ++ rest)))
          = .error .nonPositiveScale ∧
      ∀ ratio, load (putBE 8 a ++ (putBE 8 b ++ (putBE 8 c ++ rest))) ratio
          = .error (.meta .nonPositiveScale)) ∧
    (0 < toSigned a → toSigned b ≤ 0 →
      decodeMeta (putBE 8 a ++ (putBE 8 b ++ (putBE 8 c ++ rest)))
          = .error .nonPositiveKeySize ∧
      ∀ ratio, load (putBE 8 a ++ (putBE 8 b ++ (putBE 8 c ++ rest))) ratio
          = .error (.meta .nonPositiveKeySize)) ∧
    (0 < toSigned a → 0 < toSigned b → toSigned c ≤ 0 →
      decodeMeta (putBE 8 a ++ (putBE 8 b ++ (putBE 8 c ++ rest)))
          = .error .nonPositiveValSize ∧
      ∀ ratio, load (putBE 8 a ++ (putBE 8 b ++ (putBE 8 c ++ rest))) ratio
          = .error (.meta .nonPositiveValSize)) ∧
    (0 < toSigned a → 0 < toSigned b → 0 < toSigned c →
      decodeMeta (putBE 8 a ++ (putBE 8 b ++ (putBE 8 c ++ rest)))
          = .ok (⟨toSigned a, toSigned b, toSigned c⟩, rest)) := by
  have htriple := decodeMeta_triple a b c ha hb hc rest
  refine ⟨?_, ?_, ?_, ?_⟩
  · intro h1
    have hdm : decodeMeta (putBE 8 a ++ (putBE 8 b ++ (putBE 8 c ++ rest)))
        = .error .nonPositiveScale := by
      rw [htriple, if_pos h1]
    refine ⟨hdm, fun ratio => ?_⟩
    unfold load
    rw [hdm]
  · intro h1 h2
    have hdm : decodeMeta (putBE 8 a ++ (putBE 8 b ++ (putBE 8 c ++ rest)))
        = .error .nonPositiveKeySize := by
      rw [htriple, if_neg (by omega), if_pos h2]
    refine ⟨hdm, fun ratio => ?_⟩
    unfold load
    rw [hdm]
  · intro h1 h2 h3
    have hdm : decodeMeta (putBE 8 a ++ (putBE 8 b ++ (putBE 8 c ++ rest)))
        = .error .nonPositiveValSize := by
      rw [htriple, if_neg (by omega), if_neg (by omega), if_pos h3]
    refine ⟨hdm, fun ratio => ?_⟩
    unfold load
    rw [hdm]
  · intro h1 h2 h3
    rw [htriple, if_neg (by omega), if_neg (by omega), if_neg (by omega)]

theorem c5_meta_validation_witness :
    decodeMeta (putBE 8 0 ++ (putBE 8 1 ++ (putBE 8 1 ++ [])))
        = .error .nonPositiveScale ∧
    load (putBE 8 0 ++ (putBE 8 1 ++ (putBE 8 1 ++ []))) 100
        = .error (.meta .nonPositiveScale) := by
  have h := (c5_meta_validation 0 1 1 (by norm_num) (by norm_num) (by norm_num)
    []).1 (by decide)
  exact ⟨h.1, h.2 100⟩

/-- C6 (amended): for a freshly generated dataset of `S = rows.length`
records (`S ≤ 2^53`, sizes positive Go ints), loading with ratio 0
returns an empty sequence and loading with ratio 100 returns exactly the
`S` generated rows in write order. -/
theorem c6_load_boundaries (ks vs : Nat) (rows : List comparableRow)
    (file : List Nat) (hsz : ks + vs < 2 ^ 59) (hk0 : 0 < ks) (hv0 : 0 < vs)
    (hk63 : (ks : Int) < 2 ^ 63) (hv63 : (vs : Int) < 2 ^ 63)
    (hall : rows.all (rowOk ks vs) = true) (hpos : 0 < rows.length)
    (h53 : rows.length ≤ 2 ^ 53)
    (hfile : exportBytes (rows.length : Int) (ks : Int) (vs : Int) rows
      = (file, none)) :
    load file 0 = .ok [] ∧ load file 100 = .ok rows := by
  rw [exportBytes_ok _ rows hall] at hfile
  injection hfile with hf _
  subst hf
  have hs63 : ((rows.length : ℕ) : Int) < 2 ^ 63 := by
    have : rows.length ≤ 2 ^ 53 := h53
    omega
  constructor
  · have h0 := load_file ks vs rows 0 hsz hk0 hv0 hk63 hv63 hall hpos hs63
      (by rw [goTotalRows_zero_ratio]; omega)
    rw [goTotalRows_zero_ratio] at h0
    simpa using h0
  · have hh : goTotalRows (rows.length : Int) 100 = (rows.length : Int) :=
      goTotalRows_hundred _ (by omega) (by omega)
    have h1 := load_file ks vs rows 100 hsz hk0 hv0 hk63 hv63 hall hpos hs63
      (by rw [hh]; try omega)
    rw [hh] at h1
    simpa using h1

theorem c6_load_boundaries_witness :
    load (exportBytes 2 1 1 [⟨[.int 4], [.int 5], 6⟩, ⟨[.int 7], [.int 8], 9⟩]).1
        0 = .ok [] ∧
    load (exportBytes 2 1 1 [⟨[.int 4], [.int 5], 6⟩, ⟨[.int 7], [.int 8], 9⟩]).1
        100 = .ok [⟨[.int 4], [.int 5], 6⟩, ⟨[.int 7], [.int 8], 9⟩] := by
  have h := c6_load_boundaries 1 1
    [⟨[.int 4], [.int 5], 6⟩, ⟨[.int 7], [.int 8], 9⟩]
    (exportBytes 2 1 1 [⟨[.int 4], [.int 5], 6⟩, ⟨[.int 7], [.int 8], 9⟩]).1
    (by norm_num) (by norm_num) (by norm_num) (by norm_num) (by norm_num)
    (by decide) (by norm_num) (by norm_num) (by decide)
  exact h

/-- The row the large-scale counterexample replicates. -/
def cexRow : comparableRow := ⟨[.int 0], [.int 0], 0⟩

/-- C6 (counterexample): a well-formed dataset of `2^53 + 1` rows loaded
with ratio 100 yields only `2^53` rows — `float64(scale)` rounds the row
count down — so the sequence returned is not the written one. -/
theorem c6_load_counterexample :
    (exportBytes (2 ^ 53 + 1) 1 1 (List.replicate (2 ^ 53 + 1) cexRow)).2
        = none ∧
    load (exportBytes (2 ^ 53 + 1) 1 1 (List.replicate (2 ^ 53 + 1) cexRow)).1
        100 = .ok (List.replicate (2 ^ 53) cexRow) ∧
    List.replicate (2 ^ 53) cexRow ≠ List.replicate (2 ^ 53 + 1) cexRow := by
  have hall : (List.replicate (2 ^ 53 + 1) cexRow).all (rowOk 1 1) = true := by
    rw [List.all_eq_true]
    intro x hx
    rw [List.eq_of_mem_replicate hx]
    decide
  have hlen : (List.replicate (2 ^ 53 + 1) cexRow).length = 2 ^ 53 + 1 :=
    List.length_replicate _ _
  have hcast : ((2 ^ 53 + 1 : Int)) = (((List.replicate (2 ^ 53 + 1) cexRow).length : ℕ) : Int) := by
    rw [hlen]; push_cast; try ring
  have hone : ((1 : Int)) = (((1 : ℕ)) : Int) := by norm_num
  have hexp := exportBytes_ok
    (((List.replicate (2 ^ 53 + 1) cexRow).length : ℕ) : Int)
    (List.replicate (2 ^ 53 + 1) cexRow) hall
  have hgt : goTotalRows (((List.replicate (2 ^ 53 + 1) cexRow).length : ℕ) : Int) 100
      = 2 ^ 53 := by
    rw [hlen, show (((2 ^ 53 + 1 : ℕ)) : Int) = (2 ^ 53 + 1 : Int) by push_cast; try ring]
    exact goTotalRows_pow53_succ
  refine ⟨?_, ?_, ?_⟩
  · rw [hcast, hone, hexp]
  · rw [hcast, hone, hexp]
    have hload := load_file 1 1 (List.replicate (2 ^ 53 + 1) cexRow) 100
      (by norm_num) (by norm_num) (by norm_num) (by norm_num) (by norm_num)
      hall (by rw [hlen]; positivity) (by rw [hlen]; omega)
      (by rw [hgt, hlen]; omega)
    rw [hgt] at hload
    have htake : (List.replicate (2 ^ 53 + 1) cexRow).take ((2 ^ 53 : Int)).toNat
        = List.replicate (2 ^ 53) cexRow := by
      rw [show ((2 ^ 53 : Int)).toNat = (2 ^ 53 : ℕ) from rfl]
      rw [List.take_replicate]
      try congr 1
      try omega
    rw [htake] at hload
    exact hload
  · intro heq
    have hlens := congrArg List.length heq
    rw [List.length_replicate, List.length_replicate] at hlens
    omega

/-- C7: for one byte stream and two ratios `r₁ ≤ r₂` in `[0, 100]`, if
both loads succeed, the first returns at most as many rows as the
second. -/
theorem c7_ratio_monotone (s : List Nat)
    (hbytes : s.all (fun x => decide (x < 256)) = true) (r₁ r₂ : Int)
    (h0 : 0 ≤ r₁) (h12 : r₁ ≤ r₂) (h100 : r₂ ≤ 100)
    (d₁ d₂ : List comparableRow)
    (h₁ : load s r₁ = .ok d₁) (h₂ : load s r₂ = .ok d₂) :
    d₁.length ≤ d₂.length := by
  unfold load at h₁ h₂
  cases hm : decodeMeta s with
  | error e => simp [hm] at h₁
  | ok p =>
    obtain ⟨m, s₁⟩ := p
    simp only [hm] at h₁ h₂
    obtain ⟨hs0, hs63⟩ := decodeMeta_ok_bounds hbytes hm
    cases hl₁ : loadRows m.keySize.toNat m.valSize.toNat
        (goTotalRows m.scale r₁).toNat s₁ with
    | error e => simp [hl₁] at h₁
    | ok q₁ =>
      obtain ⟨rows₁, t₁⟩ := q₁
      simp only [hl₁] at h₁
      cases h₁
      cases hl₂ : loadRows m.keySize.toNat m.valSize.toNat
          (goTotalRows m.scale r₂).toNat s₁ with
      | error e => simp [hl₂] at h₂
      | ok q₂ =>
        obtain ⟨rows₂, t₂⟩ := q₂
        simp only [hl₂] at h₂
        cases h₂
        rw [loadRows_length _ _ _ _ hl₁, loadRows_length _ _ _ _ hl₂]
        have hmono := goTotalRows_mono m.scale r₁ r₂ (by omega) (by omega)
          h0 h12 h100
        omega

/-- C8: if a record decode fails after `k` successful decodes with
`k < totalRows`, the loader returns that decode error — the `k` decoded
rows are discarded, never returned as a partial result. -/
theorem c8_error_propagation (s : List Nat) (ratio : Int) (m : Meta)
    (s₁ : List Nat) (k : Nat) (e : DecErr) (rows : List comparableRow)
    (s₂ : List Nat) (hm : decodeMeta s = .ok (m, s₁))
    (hk : (k : Int) < goTotalRows m.scale ratio)
    (hsteps : loadRows m.keySize.toNat m.valSize.toNat k s₁ = .ok (rows, s₂))
    (herr : decodeRow m.keySize.toNat m.valSize.toNat s₂ = .error e) :
    load s ratio = .error (.row e) := by
  unfold load
  simp only [hm]
  have hkn : k < (goTotalRows m.scale ratio).toNat := by omega
  rw [loadRows_error k _ s₁ rows s₂ e hkn hsteps herr]

set_option maxRecDepth 40000 in
theorem c7_ratio_monotone_witness :
    ([(⟨[.int 1], [.int 2], 3⟩ : comparableRow)]).length
      ≤ ([⟨[.int 1], [.int 2], 3⟩,
          ⟨[.int 4], [.int 5], 6⟩] : List comparableRow).length :=
  c7_ratio_monotone
    (exportBytes 2 1 1 [⟨[.int 1], [.int 2], 3⟩, ⟨[.int 4], [.int 5], 6⟩]).1
    (by with_unfolding_all decide) 50 100 (by norm_num) (by norm_num)
    (by norm_num) _ _ (by with_unfolding_all decide)
    (by with_unfolding_all decide)

set_option maxRecDepth 40000 in
theorem c8_error_propagation_witness :
    load (encodeMeta [] 2 1 1 ++ (encodeRow [] ⟨[.int 1], [.int 2], 3⟩).1) 100
      = .error (.row .truncatedHeader) :=
  c8_error_propagation
    (encodeMeta [] 2 1 1 ++ (encodeRow [] ⟨[.int 1], [.int 2], 3⟩).1) 100
    ⟨2, 1, 1⟩ (encodeRow [] ⟨[.int 1], [.int 2], 3⟩).1 1 .truncatedHeader
    [⟨[.int 1], [.int 2], 3⟩] []
    (by with_unfolding_all decide) (by with_unfolding_all decide)
    (by with_unfolding_all decide) (by with_unfolding_all decide)

/-- C9: generating a dataset with `scale=10, keySize=2, valSize=1`
produces a file of exactly `24 + 10 * (8 + payloadLen)` bytes where
`payloadLen = 36` is the encoded size of 4 scalars, the same for every
row; loading it with ratio 50 returns exactly the first 5 generated rows
in generation order. -/
theorem c9_concrete_scenario (rows : List comparableRow) (file : List Nat)
    (hlen : rows.length = 10) (hall : rows.all (rowOk 2 1) = true)
    (hfile : exportBytes 10 2 1 rows = (file, none)) :
    (∀ r ∈ rows, (rowBodyBytes r).length = 36) ∧
    file.length = 24 + 10 * (8 + 36) ∧
    load file 50 = .ok (rows.take 5) := by
  have hcast10 : (10 : ℤ) = ((rows.length : ℕ) : ℤ) := by rw [hlen]; norm_num
  have hc2 : (2 : ℤ) = (((2:ℕ)) : ℤ) := by norm_num
  have hc1 : (1 : ℤ) = (((1:ℕ)) : ℤ) := by norm_num
  rw [hcast10, hc2, hc1, exportBytes_ok _ rows hall] at hfile
  injection hfile with hf _
  subst hf
  refine ⟨?_, ?_, ?_⟩
  · intro r hr
    have hok : rowOk 2 1 r = true := by
      rw [List.all_eq_true] at hall
      exact hall r hr
    have hlen36 := rowBodyBytes_length hok
    rw [hlen36]
  · rw [List.length_append, encodeMeta_length, records_join_length rows hall,
      hlen]
    norm_num
  · have hgt : goTotalRows ((rows.length : ℕ) : ℤ) 50 = 5 := by
      rw [hlen, show (((10:ℕ)) : ℤ) = (10 : ℤ) by norm_num]
      with_unfolding_all decide
    have hload := load_file 2 1 rows 50 (by norm_num) (by norm_num)
      (by norm_num) (by norm_num) (by norm_num) hall (by omega)
      (by rw [hlen]; norm_num) (by rw [hgt, hlen]; norm_num)
    rw [hgt, show ((5 : ℤ)).toNat = 5 from rfl] at hload
    exact hload

set_option maxRecDepth 100000 in
theorem c9_concrete_scenario_witness :
    (∀ r ∈ List.replicate 10 (⟨[.int 1, .int 2], [.int 3], 4⟩ : comparableRow),
      (rowBodyBytes r).length = 36) ∧
    (exportBytes 10 2 1
        (List.replicate 10 (⟨[.int 1, .int 2], [.int 3], 4⟩ : comparableRow))).1.length
      = 24 + 10 * (8 + 36) ∧
    load (exportBytes 10 2 1
        (List.replicate 10 (⟨[.int 1, .int 2], [.int 3], 4⟩ : comparableRow))).1 50
      = .ok ((List.replicate 10
          (⟨[.int 1, .int 2], [.int 3], 4⟩ : comparableRow)).take 5) :=
  c9_concrete_scenario
    (List.replicate 10 ⟨[.int 1, .int 2], [.int 3], 4⟩)
    (exportBytes 10 2 1 (List.replicate 10 ⟨[.int 1, .int 2], [.int 3], 4⟩)).1
    (by decide) (by decide) (by with_unfolding_all decide)

end Benchsort
